import Mathlib

/-
  Verification development for the picoclaw RAG indexer
  (pkg/rag/qdrant.go, pkg/rag/service.go, pkg/rag/types.go, cmd/picoclaw/rag.go).

  Modelling conventions:
  * Go strings are modelled as `List Char` (`Str`), one `Char` per rune.
    `len` of a Go string is modelled as the character count (faithful for
    the ASCII inputs all claims are about).
  * Go `int`/`int64` are modelled as `Int` where sign matters and as `Nat`
    for loop counters that are provably non-negative.
  * Fallible Go code returns `Except`; nonterminating loops take fuel and
    return `Option` (`none` = the fuel ran out before the loop finished).
-/

set_option maxRecDepth 4000

namespace Picoclaw

/-- Go strings, modelled as lists of characters. -/
abbrev Str := List Char

/-- Whitespace recognizer used by `strings.TrimSpace` (the common ASCII
whitespace characters; the full Unicode space class of Go is not needed by
any input appearing in the claims). -/
def isSpaceChar (c : Char) : Bool :=
  c = ' ' || c = '\t' || c = '\n' || c = '\r'

/-- Go `strings.TrimSpace`: drop whitespace from both ends. -/
def trimSpace (s : Str) : Str :=
  ((s.dropWhile isSpaceChar).reverse.dropWhile isSpaceChar).reverse

/-- Go `strings.Split(s, sep)` for a one-character separator: the list of
(possibly empty) fields; splitting the empty string yields one empty field. -/
def splitSep (sep : Char) : Str → List Str
  | [] => [[]]
  | c :: rest =>
    if c = sep then [] :: splitSep sep rest
    else
      match splitSep sep rest with
      | [] => [[c]]
      | h :: t => (c :: h) :: t

/-- Go `strings.HasPrefix(s, p)`: `p` is a prefix of `s`. -/
def hasPrefixF : Str → Str → Bool
  | _, [] => true
  | [], _ :: _ => false
  | x :: xs, c :: cs => c = x && hasPrefixF xs cs

/-- Go `strings.TrimPrefix(s, p)`: drop `p` from the front of `s` when it is
a prefix, otherwise return `s` unchanged. -/
def trimPrefixF (s p : Str) : Str :=
  if hasPrefixF s p then s.drop p.length else s

/-- Go `strings.ToLower` (ASCII case mapping, which is all the trigger
keywords exercise). -/
def toLowerStr (s : Str) : Str := s.map Char.toLower

/-- Go `strings.Contains(s, sub)`: `sub` occurs as a contiguous substring. -/
def containsSub : Str → Str → Bool
  | [], sub => hasPrefixF [] sub
  | s@(_ :: t), sub => hasPrefixF s sub || containsSub t sub

/- ------------------------------------------------------------------ -/
/- Trigger decision (cmd/picoclaw/rag.go, DecideTrigger)              -/
/- ------------------------------------------------------------------ -/

/-- config.RagTriggerConfig: the fields DecideTrigger consumes. -/
structure RagTriggerConfig where
  ForcePrefixes : List Str
  SkipPrefixes : List Str
  Auto : Bool
  AutoKeywords : List Str
deriving DecidableEq

/-- TriggerDecision struct (cmd/picoclaw/rag.go lines 135-141). -/
structure TriggerDecision where
  CleanedMessage : Str
  ShouldSearch : Bool
  Forced : Bool
  Skipped : Bool
  MatchedKeyword : Str
deriving DecidableEq

/-- matchPrefix (cmd/picoclaw/rag.go lines 183-193): first non-empty prefix
of the list that prefixes the message, paired with a found flag. -/
def matchPrefixF (message : Str) : List Str → Str × Bool
  | [] => ([], false)
  | p :: rest =>
    if p = [] then matchPrefixF message rest
    else if hasPrefixF message p then (p, true)
    else matchPrefixF message rest

/-- matchKeyword inner loop (cmd/picoclaw/rag.go lines 200-207): first
non-empty keyword contained (case-insensitively) in the lowered message. -/
def matchKeywordLoop (lower : Str) : List Str → Str
  | [] => []
  | kw :: rest =>
    if kw = [] then matchKeywordLoop lower rest
    else if containsSub lower (toLowerStr kw) then kw
    else matchKeywordLoop lower rest

/-- matchKeyword (cmd/picoclaw/rag.go lines 195-209). -/
def matchKeyword (message : Str) (keywords : List Str) : Str :=
  if keywords = [] then []
  else matchKeywordLoop (toLowerStr message) keywords

/-- DecideTrigger (cmd/picoclaw/rag.go lines 143-181). -/
def DecideTrigger (message : Str) (cfg : RagTriggerConfig) : TriggerDecision :=
  let trimmed := trimSpace message
  if trimmed = [] then ⟨message, false, false, false, []⟩
  else
    let f := matchPrefixF trimmed cfg.ForcePrefixes
    if f.2 then ⟨trimSpace (trimPrefixF trimmed f.1), true, true, false, []⟩
    else
      let s := matchPrefixF trimmed cfg.SkipPrefixes
      if s.2 then ⟨trimSpace (trimPrefixF trimmed s.1), false, false, true, []⟩
      else if !cfg.Auto then ⟨trimmed, false, false, false, []⟩
      else
        let kw := matchKeyword trimmed cfg.AutoKeywords
        if kw ≠ [] then ⟨trimmed, true, false, false, kw⟩
        else ⟨trimmed, false, false, false, []⟩

/- ------------------------------------------------------------------ -/
/- Markdown chunker (pkg/rag/qdrant.go, chunkMarkdown/headingsByLine) -/
/- ------------------------------------------------------------------ -/

/-- chunk struct (pkg/rag/qdrant.go lines 240-246). Line numbers are the
Go ints `start+1`/`end+1`, always positive, modelled as `Nat`. -/
structure chunk where
  Path : Str
  Heading : Str
  StartLine : Nat
  EndLine : Nat
  Content : Str
deriving DecidableEq

/-- joinHeading (pkg/rag/qdrant.go lines 345-353): non-empty stack entries
joined with " > ". -/
def joinHeading (stack : List Str) : Str :=
  List.intercalate [' ', '>', ' '] (stack.filter (fun h => h ≠ []))

/-- Count of leading '#' characters (the heading-level loop of
headingsByLine, lines 326-329). -/
def countHash : Str → Nat
  | '#' :: rest => 1 + countHash rest
  | _ => 0

/-- One line of the headingsByLine loop body (lines 323-339): update the
6-level heading stack if the line is a heading of level 1..6 with a
non-empty title. -/
def stepHeading (stack : List Str) (line : Str) : List Str :=
  let trimmed := trimSpace line
  if hasPrefixF trimmed ['#'] then
    let level := countHash trimmed
    if 0 < level ∧ level ≤ 6 then
      let title := trimSpace (trimmed.drop level)
      if title ≠ [] then stack.take (level - 1) ++ [title] ++ List.replicate (6 - level) []
      else stack
    else stack
  else stack

/-- Loop of headingsByLine: the heading path recorded for each line is the
joined stack after that line has been processed. -/
def headingsLoop (stack : List Str) : List Str → List Str
  | [] => []
  | line :: rest =>
    let stack' := stepHeading stack line
    joinHeading stack' :: headingsLoop stack' rest

/-- headingsByLine (pkg/rag/qdrant.go lines 320-343). -/
def headingsByLine (lines : List Str) : List Str :=
  headingsLoop (List.replicate 6 []) lines

/-- Last '/'-separated component of a path (filepath.Base for the
slash-normalized relative file paths the chunker receives). -/
def lastSegmentOf (p : Str) : Str :=
  (splitSep '/' p).getLastD []

/-- Length of the extension (final dot onwards) of a base name, 0 when the
name has no dot (filepath.Ext of a separator-free name). -/
def extLen (base : Str) : Nat :=
  let r := base.reverse
  if r.dropWhile (fun c => c ≠ '.') = [] then 0
  else (r.takeWhile (fun c => c ≠ '.')).length + 1

/-- strings.TrimSuffix(filepath.Base(path), filepath.Ext(path)) — the
chunk-heading fallback of chunkMarkdown line 281. -/
def baseNameNoExt (path : Str) : Str :=
  let base := lastSegmentOf path
  base.take (base.length - extLen base)

/-- Inner scan loop of chunkMarkdown (lines 266-274): how many lines are
accepted into the chunk starting at the head of `ls`, given the running
character count. Each line costs its length plus one (the terminator). -/
def scanLen (size : Nat) : Nat → List Str → Nat
  | _, [] => 0
  | charCount, l :: rest =>
    let lineLen := l.length + 1
    if charCount > 0 ∧ charCount + lineLen > size then 0
    else 1 + scanLen size (charCount + lineLen) rest

/-- Overlap walk-back loop of chunkMarkdown (lines 299-307) on the reversed
chunk segment: how many lines (from the end of the chunk) are walked back
before the overlap budget is met; walking the whole segment when the budget
is never met models the `j < start` clamp of line 308. -/
def countBack (overlap : Nat) : Nat → List Str → Nat
  | _, [] => 0
  | acc, l :: rest =>
    let a := acc + l.length + 1
    if a ≥ overlap then 1 else 1 + countBack overlap a rest

/-- Outer loop of chunkMarkdown (lines 263-315), with fuel: one unit of
fuel per outer iteration; `none` means the fuel ran out before the loop
finished. `i` is the scan position, `acc` the chunks emitted so far in
reverse order. -/
def chunkGo (path : Str) (lines headings : List Str) (fallback : Str)
    (size overlap : Nat) : Nat → Nat → List chunk → Option (List chunk)
  | 0, _, _ => none
  | fuel + 1, i, acc =>
    if i < lines.length then
      let n := scanLen size 0 (lines.drop i)
      if n = 0 then some acc.reverse
      else
        let iNew := i + n
        let heading0 := (headings.getD i [])
        let heading := if heading0 = [] then fallback else heading0
        let text := trimSpace (List.intercalate ['\n'] ((lines.drop i).take n))
        let acc' :=
          if text = [] then acc
          else chunk.mk path heading (i + 1) iNew text :: acc
        if iNew ≥ lines.length then some acc'.reverse
        else
          let i' :=
            if overlap > 0 then
              iNew - countBack overlap 0 ((lines.drop i).take n).reverse
            else iNew
          chunkGo path lines headings fallback size overlap fuel i' acc'
    else some acc.reverse

/-- chunkMarkdown (pkg/rag/qdrant.go lines 248-318): clamp the parameters,
split into lines, precompute headings, then run the chunking loop with the
given fuel. -/
def chunkMarkdown (path content : Str) (chunkSize chunkOverlap : Int)
    (fuel : Nat) : Option (List chunk) :=
  let size : Nat := if chunkSize ≤ 0 then 800 else chunkSize.toNat
  let overlap0 : Nat := if chunkOverlap < 0 then 0 else chunkOverlap.toNat
  let overlap : Nat := if overlap0 ≥ size then size / 2 else overlap0
  let lines := splitSep '\n' content
  let headings := headingsByLine lines
  chunkGo path lines headings (baseNameNoExt path) size overlap fuel 0 []

/- ------------------------------------------------------------------ -/
/- Index manifest (cmd/picoclaw rag.go state file, qdrant.go run)     -/
/- ------------------------------------------------------------------ -/

/-- indexState struct (state-file part of the repository, lines 88-99).
`Files` is the JSON map relativePath → lastModified, modelled as an
association list with unique keys. -/
structure indexState where
  Version : Int
  UpdatedAt : Str
  Collection : Str
  EmbeddingModel : Str
  EmbeddingDimension : Int
  ChunkSize : Int
  ChunkOverlap : Int
  IncludePatterns : List Str
  ExcludePatterns : List Str
  Files : List (Str × Int)
deriving DecidableEq

/-- Map lookup on the association-list model of `Files`. -/
def lookupF : List (Str × Int) → Str → Option Int
  | [], _ => none
  | (k, v) :: rest, key => if k = key then some v else lookupF rest key

/-- Map store on the association-list model of `Files`: replace the
existing entry or append a new one. -/
def setKey : List (Str × Int) → Str → Int → List (Str × Int)
  | [], key, v => [(key, v)]
  | (k, v') :: rest, key, v =>
    if k = key then (key, v) :: rest else (k, v') :: setKey rest key v

/-- Map delete on the association-list model of `Files` (removes the first
entry with the key, which under unique keys is Go's `delete`). -/
def removeKey : List (Str × Int) → Str → List (Str × Int)
  | [], _ => []
  | (k, v) :: rest, key => if k = key then rest else (k, v) :: removeKey rest key

/-- loadIndexState (lines 101-114): read then parse, propagating either
failure. Reading and JSON decoding are the external effects, passed in as
the read result and the parser. -/
def loadIndexState {ε : Type} (readResult : Except ε Str)
    (parse : Str → Except ε indexState) : Except ε indexState :=
  match readResult with
  | .error e => .error e
  | .ok data =>
    match parse data with
    | .error e => .error e
    | .ok st => .ok st

/-- The state the indexer run actually uses: `state, _ := loadIndexState(...)`
discards the error, so any failure is treated as an absent manifest. -/
def runLoadState {ε : Type} (readResult : Except ε Str)
    (parse : Str → Except ε indexState) : Option indexState :=
  (loadIndexState readResult parse).toOption

/-- stringSliceEqual (pkg/rag/qdrant.go lines 681-691): length check plus
element-wise equality, i.e. order-sensitive exact sequence comparison. -/
def stringSliceEqual : List Str → List Str → Bool
  | [], [] => true
  | a :: as', b :: bs' => a = b && stringSliceEqual as' bs'
  | _, _ => false

/-- Reindex-all decision of run (pkg/rag/qdrant.go lines 399-418): the
caller's flag, forced when the manifest is absent, OR-ed with the four
drift checks when the manifest is present and the flag was not set. -/
def computeReindexAll (state : Option indexState) (optsReindexAll : Bool)
    (embedModel : Str) (chunkSize chunkOverlap : Int)
    (includePatterns excludePatterns : List Str) (collection : Str) : Bool :=
  match state with
  | none => true
  | some s =>
    if optsReindexAll then true
    else if s.EmbeddingModel ≠ embedModel then true
    else if s.ChunkSize ≠ chunkSize ∨ s.ChunkOverlap ≠ chunkOverlap then true
    else if !stringSliceEqual s.IncludePatterns includePatterns
           || !stringSliceEqual s.ExcludePatterns excludePatterns then true
    else if s.Collection ≠ collection then true
    else false

/-- The reindex-all policy in the spec's words: full rebuild exactly when
the manifest is absent, or it was requested, or the model, chunk
parameters, pattern lists or collection changed. -/
def reindexAllSpec (state : Option indexState) (optsReindexAll : Bool)
    (embedModel : Str) (chunkSize chunkOverlap : Int)
    (includePatterns excludePatterns : List Str) (collection : Str) : Prop :=
  state = none ∨ optsReindexAll = true ∨
    ∃ s, state = some s ∧
      (s.EmbeddingModel ≠ embedModel ∨ s.ChunkSize ≠ chunkSize ∨
       s.ChunkOverlap ≠ chunkOverlap ∨ s.IncludePatterns ≠ includePatterns ∨
       s.ExcludePatterns ≠ excludePatterns ∨ s.Collection ≠ collection)

/- ------------------------------------------------------------------ -/
/- Glob pattern filtering (pkg/rag/qdrant.go lines 578-674)           -/
/- ------------------------------------------------------------------ -/

/-- Items of the regular expressions emitted by globToRegex: a literal
character (either plain or escaped in the regex text), `.` (any character
except newline — RE2 default), `.*` and `[^/]*`. The implicit `^...$`
anchors are the full-match semantics of the matcher below. -/
inductive RItem where
  | lit (c : Char)
  | anyChar
  | starAny
  | starNoSlash
deriving DecidableEq

/-- Matching of a globToRegex-produced regex against a whole string.
`anyChar` and `starAny` refuse newline exactly as RE2's `.`;
`starNoSlash` refuses only '/' as RE2's `[^/]`. -/
def rmatch : List RItem → Str → Bool
  | [], [] => true
  | [], _ :: _ => false
  | .lit _ :: _, [] => false
  | .lit c :: r, x :: xs => c = x && rmatch r xs
  | .anyChar :: _, [] => false
  | .anyChar :: r, x :: xs => x ≠ '\n' && rmatch r xs
  | .starAny :: r, [] => rmatch r []
  | .starAny :: r, x :: xs => rmatch r (x :: xs) || (x ≠ '\n' && rmatch (.starAny :: r) xs)
  | .starNoSlash :: r, [] => rmatch r []
  | .starNoSlash :: r, x :: xs =>
    rmatch r (x :: xs) || (x ≠ '/' && rmatch (.starNoSlash :: r) xs)
termination_by r s => (s.length, r.length)

/-- globToRegex (pkg/rag/qdrant.go lines 638-665) as the item list of the
regex it emits, following the Go byte loop: on `*`, look ahead for a
second `*` and emit `.*` (consuming both) or `[^/]*`; on `?` emit `.`;
any other character (escaped when a regex metacharacter) is a literal. -/
def globToRegex : Str → List RItem
  | [] => []
  | c :: p =>
    if c = '*' then
      match p with
      | c2 :: p2 =>
        if c2 = '*' then .starAny :: globToRegex p2
        else .starNoSlash :: globToRegex (c2 :: p2)
      | [] => [.starNoSlash]
    else if c = '?' then .anyChar :: globToRegex p
    else .lit c :: globToRegex p

/-- compilePatterns (lines 622-636): trim each pattern, skip empties, and
translate the rest (the emitted regex text always compiles, every
metacharacter being escaped, so the error branch is dead). -/
def compilePatterns : List Str → List (List RItem)
  | [] => []
  | p :: rest =>
    let p' := trimSpace p
    if p' = [] then compilePatterns rest
    else globToRegex p' :: compilePatterns rest

/-- matchesAny (lines 667-674). -/
def matchesAny (path : Str) (patterns : List (List RItem)) : Bool :=
  patterns.any (fun re => rmatch re path)

/-- The include/exclude filter applied to each slash-normalized relative
path by listMarkdownFiles (lines 599-603): exclusion wins, and a non-empty
compiled include list must match. -/
def fileAccepted (rel : Str) (includePatterns excludePatterns : List Str) : Bool :=
  let includeRegex := compilePatterns includePatterns
  let excludeRegex := compilePatterns excludePatterns
  if matchesAny rel excludeRegex then false
  else if includeRegex.length > 0 ∧ !matchesAny rel includeRegex then false
  else true

/-- Glob semantics in the spec's words, for comparison with the compiled
matcher: `**` matches any character sequence (across segments), `*` any
character sequence without '/' (within one segment), `?` exactly one
character, anything else only itself. -/
def globSpecMatch : Str → Str → Bool
  | [], [] => true
  | [], _ :: _ => false
  | c :: p, s =>
    if c = '*' then
      match p with
      | c2 :: p2 =>
        if c2 = '*' then
          match s with
          | [] => globSpecMatch p2 []
          | x :: xs => globSpecMatch p2 (x :: xs) || globSpecMatch (c :: p) xs
        else
          match s with
          | [] => globSpecMatch (c2 :: p2) []
          | x :: xs =>
            globSpecMatch (c2 :: p2) (x :: xs) || (x ≠ '/' && globSpecMatch (c :: p) xs)
      | [] =>
        match s with
        | [] => true
        | x :: xs => x ≠ '/' && globSpecMatch (c :: p) xs
    else if c = '?' then
      match s with
      | [] => false
      | _ :: xs => globSpecMatch p xs
    else
      match s with
      | [] => false
      | x :: xs => c = x && globSpecMatch p xs
termination_by p s => (s.length, p.length)

/- ------------------------------------------------------------------ -/
/- Indexer run (pkg/rag/qdrant.go lines 370-570)                      -/
/- ------------------------------------------------------------------ -/

/-- fileEntry (pkg/rag/qdrant.go lines 572-576). -/
structure fileEntry where
  AbsPath : Str
  RelPath : Str
  MTime : Int
deriving DecidableEq

/-- IndexSummary (pkg/rag/types.go). The counters are non-negative Go
ints, modelled as `Nat`. -/
structure IndexSummary where
  TotalFiles : Nat
  IndexedFiles : Nat
  UpdatedFiles : Nat
  RemovedFiles : Nat
  SkippedFiles : Nat
  Chunks : Nat
deriving DecidableEq

/-- hashPointID (lines 676-679) computes the sha1 hex digest of
"path:start:end"; it is modelled as the triple it deterministically (and,
bar hash collisions, injectively) encodes. -/
structure PointID where
  path : Str
  startLine : Nat
  endLine : Nat
deriving DecidableEq

def hashPointID (path : Str) (startLine endLine : Nat) : PointID :=
  ⟨path, startLine, endLine⟩

/-- The payload attached to each upserted point (lines 534-541). -/
structure PointPayload where
  path : Str
  heading : Str
  start_line : Nat
  end_line : Nat
  content : Str
  mtime : Int
deriving DecidableEq

/-- QdrantPoint (lines 22-26); the float entries of the vector are an
arbitrary scalar type `α`. -/
structure QdrantPoint (α : Type) where
  ID : PointID
  Vector : List α
  Payload : PointPayload
deriving DecidableEq

/-- One collaborator call issued by the run, as recorded in the call
trace. `embedBatch` additionally records which file's chunks are being
embedded (call-site context; the HTTP request itself carries only the
texts). -/
inductive RagCall (α : Type) where
  | ensureCollection (dim : Int) (recreate : Bool)
  | deleteByPath (path : Str)
  | readFile (path : Str)
  | embedBatch (path : Str) (texts : List Str)
  | upsert (points : List (QdrantPoint α))
  | saveState (st : indexState)
deriving DecidableEq

/-- The external collaborators of the run (embedding client, qdrant
client, filesystem read, state-file write), as deterministic oracles:
each call either fails with an `ε` or succeeds. -/
structure Collab (α ε : Type) where
  readFile : Str → Except ε Str
  embedBatch : List Str → Except ε (List (List α))
  ensureCollection : Int → Bool → Except ε Unit
  deleteByPath : Str → Except ε Unit
  upsert : List (QdrantPoint α) → Except ε Unit
  saveState : indexState → Except ε Unit

/-- The distinct error exits of run, each tagged with its Go return site. -/
inductive RunError (ε : Type) where
  | readFailed (path : Str) (e : ε)
  | embedFailed (e : ε)
  | ensureFailed (e : ε)
  | deleteFailed (e : ε)
  | upsertFailed (e : ε)
  | saveFailed (e : ε)
  | sizeMismatch
  | dimMismatch (got expected : Int)
  | invalidDimension
deriving DecidableEq

/-- An error raised by a failing embedding or vector-store collaborator
call (the "Transport/API errors" of the spec's taxonomy). -/
def RunError.isCollaboratorFailure {ε : Type} : RunError ε → Bool
  | .embedFailed _ => true
  | .ensureFailed _ => true
  | .deleteFailed _ => true
  | .upsertFailed _ => true
  | _ => false

/-- The mutable context threaded through the run: the in-memory manifest,
the summary counters, and the chronological trace of collaborator calls. -/
structure RunCtx (α : Type) where
  st : indexState
  summary : IndexSummary
  trace : List (RagCall α)
deriving DecidableEq

/-- Result of a whole run: the final context, or the error with the
context at the moment of failure. -/
inductive Outcome (α ε : Type) where
  | ok (c : RunCtx α)
  | err (e : RunError ε) (c : RunCtx α)
deriving DecidableEq

/-- Append one collaborator call to the trace. -/
def emitCall {α : Type} (c : RunCtx α) (ev : RagCall α) : RunCtx α :=
  { c with trace := c.trace ++ [ev] }

/-- The configuration fields run consumes (config.RagConfig plus the
embedding dimension and batch size of config.RagEmbeddingConfig). -/
structure RagConfigM where
  ChunkSize : Int
  ChunkOverlap : Int
  IncludePatterns : List Str
  ExcludePatterns : List Str
  EmbeddingDimension : Int
  EmbeddingBatchSize : Int
deriving DecidableEq

/-- Batch-size clamp of NewEmbeddingClient (service.go lines 135-138):
non-positive configured batch sizes become 16, so BatchSize() ≥ 1. -/
def embeddingClientBatchSize (cfgBatch : Int) : Nat :=
  if cfgBatch ≤ 0 then 16 else cfgBatch.toNat

/-- Split a list into consecutive batches of (at most) `bs` elements — the
`for start := 0; start < len; start += batchSize` loop bounds of run
lines 500-505. The inner fuel equals the list length, which suffices for
the batch sizes ≥ 1 that NewEmbeddingClient guarantees. -/
def batchesAux {χ : Type} : Nat → Nat → List χ → List (List χ)
  | 0, _, _ => []
  | _, _, [] => []
  | fuel + 1, bs, l => l.take bs :: batchesAux fuel bs (l.drop bs)

def batchesOf {χ : Type} (bs : Nat) (l : List χ) : List (List χ) :=
  batchesAux l.length bs l

/-- The ensureCollection closure of run (lines 442-451): reject a
non-positive dimension, call the vector store, and on success record the
dimension in the in-memory manifest. -/
def ensureCollectionGo {α ε : Type} (col : Collab α ε) (recreate : Bool)
    (dim : Int) (c : RunCtx α) : Except (RunError ε × RunCtx α) (RunCtx α) :=
  if dim ≤ 0 then .error (.invalidDimension, c)
  else
    let c := emitCall c (.ensureCollection dim recreate)
    match col.ensureCollection dim recreate with
    | .error e => .error (.ensureFailed e, c)
    | .ok _ => .ok { c with st := { c.st with EmbeddingDimension := dim } }

/-- Removal pass of run (lines 465-473): every manifest path absent from
the current scan gets one delete-by-path, is dropped from the manifest,
and is counted as removed. `entries` is the snapshot of `state.Files`
being iterated, `currentPaths` the relative paths of the scan. -/
def removalPass {α ε : Type} (col : Collab α ε) (currentPaths : List Str) :
    List (Str × Int) → RunCtx α → Except (RunError ε × RunCtx α) (RunCtx α)
  | [], c => .ok c
  | (path, _) :: rest, c =>
    if path ∈ currentPaths then removalPass col currentPaths rest c
    else
      let c := emitCall c (.deleteByPath path)
      match col.deleteByPath path with
      | .error e => .error (.deleteFailed e, c)
      | .ok _ =>
        let c := { c with
          st := { c.st with Files := removeKey c.st.Files path },
          summary := { c.summary with RemovedFiles := c.summary.RemovedFiles + 1 } }
        removalPass col currentPaths rest c

/-- One embedding batch (run lines 505-548): embed the texts, check the
1:1 size contract, lazily resolve the dimension when still unrecorded
(fatal if a positive configured dimension disagrees with the first
vector), build the points and upsert them. -/
def processBatch {α ε : Type} (col : Collab α ε) (cfgDim : Int)
    (reindexAll : Bool) (rel : Str) (mt : Int) (batch : List chunk)
    (c : RunCtx α) : Except (RunError ε × RunCtx α) (RunCtx α) :=
  let texts := batch.map (fun ch => ch.Content)
  let c := emitCall c (.embedBatch rel texts)
  match col.embedBatch texts with
  | .error e => .error (.embedFailed e, c)
  | .ok embeddings =>
    if embeddings.length ≠ batch.length then .error (.sizeMismatch, c)
    else
      let afterDim : Except (RunError ε × RunCtx α) (RunCtx α) :=
        if c.st.EmbeddingDimension = 0 then
          let dimension : Int := (embeddings.headD []).length
          if cfgDim > 0 ∧ cfgDim ≠ dimension then
            .error (.dimMismatch dimension cfgDim, c)
          else ensureCollectionGo col reindexAll dimension c
        else .ok c
      match afterDim with
      | .error ec => .error ec
      | .ok c =>
        let points := (batch.zip embeddings).map (fun p =>
          QdrantPoint.mk (hashPointID rel p.1.StartLine p.1.EndLine) p.2
            ⟨p.1.Path, p.1.Heading, p.1.StartLine, p.1.EndLine, p.1.Content, mt⟩)
        let c := { c with summary := { c.summary with Chunks := c.summary.Chunks + batch.length } }
        let c := emitCall c (.upsert points)
        match col.upsert points with
        | .error e => .error (.upsertFailed e, c)
        | .ok _ => .ok c

/-- All batches of one file, in order. -/
def processBatches {α ε : Type} (col : Collab α ε) (cfgDim : Int)
    (reindexAll : Bool) (rel : Str) (mt : Int) :
    List (List chunk) → RunCtx α → Except (RunError ε × RunCtx α) (RunCtx α)
  | [], c => .ok c
  | b :: rest, c =>
    match processBatch col cfgDim reindexAll rel mt b c with
    | .error ec => .error ec
    | .ok c => processBatches col cfgDim reindexAll rel mt rest c

/-- Per-file body of run (lines 475-556): skip an unchanged file when not
rebuilding; otherwise read it, chunk it (empty chunking only records the
marker), delete its old vectors, embed and upsert its batches, classify it
as updated or new, and record its marker. `none` propagates chunkMarkdown
running out of fuel. -/
def processFile {α ε : Type} (col : Collab α ε) (cfg : RagConfigM)
    (reindexAll : Bool) (bs fuel : Nat) (f : fileEntry) (c : RunCtx α) :
    Option (Except (RunError ε × RunCtx α) (RunCtx α)) :=
  let mt := f.MTime
  if !reindexAll ∧ lookupF c.st.Files f.RelPath = some mt then
    some (.ok { c with summary := { c.summary with SkippedFiles := c.summary.SkippedFiles + 1 } })
  else
    let c := emitCall c (.readFile f.AbsPath)
    match col.readFile f.AbsPath with
    | .error e => some (.error (.readFailed f.AbsPath e, c))
    | .ok content =>
      match chunkMarkdown f.RelPath content cfg.ChunkSize cfg.ChunkOverlap fuel with
      | none => none
      | some chunks =>
        if chunks = [] then
          some (.ok { c with st := { c.st with Files := setKey c.st.Files f.RelPath mt } })
        else
          let c := emitCall c (.deleteByPath f.RelPath)
          match col.deleteByPath f.RelPath with
          | .error e => some (.error (.deleteFailed e, c))
          | .ok _ =>
            match processBatches col cfg.EmbeddingDimension reindexAll f.RelPath mt
                (batchesOf bs chunks) c with
            | .error ec => some (.error ec)
            | .ok c =>
              let wasTracked := (lookupF c.st.Files f.RelPath).isSome
              let summary :=
                if wasTracked ∧ !reindexAll then
                  { c.summary with UpdatedFiles := c.summary.UpdatedFiles + 1 }
                else
                  { c.summary with IndexedFiles := c.summary.IndexedFiles + 1 }
              some (.ok { c with
                summary := summary,
                st := { c.st with Files := setKey c.st.Files f.RelPath mt } })

/-- The per-file loop of run, in discovery order. -/
def filesLoop {α ε : Type} (col : Collab α ε) (cfg : RagConfigM)
    (reindexAll : Bool) (bs fuel : Nat) :
    List fileEntry → RunCtx α → Option (Except (RunError ε × RunCtx α) (RunCtx α))
  | [], c => some (.ok c)
  | f :: rest, c =>
    match processFile col cfg reindexAll bs fuel f c with
    | none => none
    | some (.error ec) => some (.error ec)
    | some (.ok c) => filesLoop col cfg reindexAll bs fuel rest c

/-- The zero manifest run substitutes for an absent one (lines 430-435;
the remaining fields take their Go zero values). -/
def freshIndexState : indexState :=
  ⟨1, [], [], [], 0, 0, 0, [], [], []⟩

/-- run (pkg/rag/qdrant.go lines 386-570). The vault stat and the
filesystem walk are the run's inputs here: `files` is the (already
filtered) discovery result and `loaded` the manifest as loadIndexState
left it (`none` when missing or unparsable, its error being discarded).
The final save stamps the configuration fingerprint into the manifest and
writes it; `UpdatedAt` (a wall-clock timestamp) is not modelled. -/
def runGo {α ε : Type} (col : Collab α ε) (cfg : RagConfigM)
    (embedModel collectionName : Str) (files : List fileEntry)
    (loaded : Option indexState) (optsReindexAll : Bool) (fuel : Nat) :
    Option (Outcome α ε) :=
  let reindexAll := computeReindexAll loaded optsReindexAll embedModel
    cfg.ChunkSize cfg.ChunkOverlap cfg.IncludePatterns cfg.ExcludePatterns collectionName
  let currentPaths := files.map (fun f => f.RelPath)
  let state0 := loaded.getD freshIndexState
  let dimension : Int :=
    if state0.EmbeddingDimension = 0 ∧ cfg.EmbeddingDimension > 0 then
      cfg.EmbeddingDimension
    else state0.EmbeddingDimension
  let c0 : RunCtx α := ⟨state0, ⟨files.length, 0, 0, 0, 0, 0⟩, []⟩
  let step1 :=
    if dimension > 0 then ensureCollectionGo col reindexAll dimension c0
    else .ok c0
  match step1 with
  | .error (e, c) => some (.err e c)
  | .ok c =>
    let c := if reindexAll then { c with st := { c.st with Files := [] } } else c
    match removalPass col currentPaths c.st.Files c with
    | .error (e, c) => some (.err e c)
    | .ok c =>
      let bs := embeddingClientBatchSize cfg.EmbeddingBatchSize
      match filesLoop col cfg reindexAll bs fuel files c with
      | none => none
      | some (.error (e, c)) => some (.err e c)
      | some (.ok c) =>
        let st := { c.st with
          Collection := collectionName,
          EmbeddingModel := embedModel,
          ChunkSize := cfg.ChunkSize,
          ChunkOverlap := cfg.ChunkOverlap,
          IncludePatterns := cfg.IncludePatterns,
          ExcludePatterns := cfg.ExcludePatterns }
        let c := { c with st := st }
        let c := emitCall c (.saveState c.st)
        match col.saveState c.st with
        | .error e => some (.err (.saveFailed e) c)
        | .ok _ => some (.ok c)

/- ------------------------------------------------------------------ -/
/- C1: termination of the chunker                                     -/
/- ------------------------------------------------------------------ -/

/-- An input on which the chunking loop never advances: the first line
alone overflows the 10-character budget, so the chunk is the single line
0..0, and the overlap walk-back from line 0 immediately meets the
5-character budget at the chunk's own start line, resetting the scan
position to 0. -/
def badPath : Str := ['a', '.', 'm', 'd']

def badLines : List Str := [['a','a','a','a','a','a','a','a','a','a','a'], ['b']]

def badContent : Str := ['a','a','a','a','a','a','a','a','a','a','a','\n','b']

def badChunk : chunk :=
  ⟨badPath, ['a'], 1, 1, ['a','a','a','a','a','a','a','a','a','a','a']⟩

theorem chunkGo_bad_stuck : ∀ (fuel : Nat) (acc : List chunk),
    chunkGo badPath badLines (headingsByLine badLines) ['a'] 10 5 fuel 0 acc = none := by
  intro fuel
  induction fuel with
  | zero => intro acc; rfl
  | succ n ih =>
    intro acc
    show chunkGo badPath badLines (headingsByLine badLines) ['a'] 10 5 n 0
      (badChunk :: acc) = none
    exact ih _

/-- C1: the claim that chunking terminates for every input is violated by
the code: with chunkSize 10 and chunkOverlap 5, the two-line document
"aaaaaaaaaaa\nb" makes the outer loop of chunkMarkdown reset its scan
position to the chunk's start line on every iteration, so no amount of
fuel completes the loop (the Go original loops forever). -/
theorem C1_chunkMarkdown_nontermination :
    ∀ fuel : Nat, chunkMarkdown badPath badContent 10 5 fuel = none := by
  intro fuel
  show chunkGo badPath badLines (headingsByLine badLines) ['a'] 10 5 fuel 0 [] = none
  exact chunkGo_bad_stuck fuel []

/- ------------------------------------------------------------------ -/
/- C8: heading assignment of chunks                                   -/
/- ------------------------------------------------------------------ -/

/-- The heading the spec assigns to a chunk whose first line is
`startLine` (1-based): the active heading path at that line, or the file's
base name without extension when the path is empty. -/
def headingAt (path content : Str) (startLine : Nat) : Str :=
  let hs := headingsByLine (splitSep '\n' content)
  let h := hs.getD (startLine - 1) []
  if h = [] then baseNameNoExt path else h

theorem chunkGo_heading_inv (path : Str) (lines headings : List Str)
    (fallback : Str) (size overlap : Nat) : ∀ (fuel i : Nat)
    (acc cs : List chunk),
    chunkGo path lines headings fallback size overlap fuel i acc = some cs →
    (∀ c ∈ acc, c.Heading =
      (if headings.getD (c.StartLine - 1) [] = [] then fallback
       else headings.getD (c.StartLine - 1) [])) →
    ∀ c ∈ cs, c.Heading =
      (if headings.getD (c.StartLine - 1) [] = [] then fallback
       else headings.getD (c.StartLine - 1) []) := by
  intro fuel
  induction fuel with
  | zero => intro i acc cs h; simp [chunkGo] at h
  | succ n ih =>
    intro i acc cs h hacc
    simp only [chunkGo] at h
    by_cases hi : i < lines.length
    · rw [if_pos hi] at h
      by_cases hn : scanLen size 0 (lines.drop i) = 0
      · rw [if_pos hn] at h
        injection h with h
        subst h
        intro c hc
        exact hacc c (List.mem_reverse.mp hc)
      · rw [if_neg hn] at h
        have hnew : ∀ c ∈ (if trimSpace (List.intercalate ['\n']
              ((lines.drop i).take (scanLen size 0 (lines.drop i)))) = [] then acc
            else chunk.mk path
              (if headings.getD i [] = [] then fallback else headings.getD i [])
              (i + 1) (i + scanLen size 0 (lines.drop i))
              (trimSpace (List.intercalate ['\n']
                ((lines.drop i).take (scanLen size 0 (lines.drop i))))) :: acc),
            c.Heading = (if headings.getD (c.StartLine - 1) [] = [] then fallback
              else headings.getD (c.StartLine - 1) []) := by
          intro c hc
          by_cases ht : trimSpace (List.intercalate ['\n']
              ((lines.drop i).take (scanLen size 0 (lines.drop i)))) = []
          · rw [if_pos ht] at hc
            exact hacc c hc
          · rw [if_neg ht] at hc
            rcases List.mem_cons.mp hc with hc | hc
            · subst hc
              simp
            · exact hacc c hc
        by_cases he : i + scanLen size 0 (lines.drop i) ≥ lines.length
        · rw [if_pos he] at h
          injection h with h
          subst h
          intro c hc
          exact hnew c (List.mem_reverse.mp hc)
        · rw [if_neg he] at h
          exact ih _ _ _ h hnew
    · rw [if_neg hi] at h
      injection h with h
      subst h
      intro c hc
      exact hacc c (List.mem_reverse.mp hc)

/-- The worked document of the spec, "# A\ntext\n## B\nmore\n# C\nend",
chunked from doc.md with chunkSize 5 and no overlap (one line per chunk). -/
def exPath : Str := ['d','o','c','.','m','d']

def exDoc : Str :=
  ['#',' ','A','\n','t','e','x','t','\n','#','#',' ','B','\n','m','o','r','e','\n','#',' ','C','\n','e','n','d']

def exChunks : List chunk :=
  [⟨exPath, ['A'], 1, 1, ['#',' ','A']⟩,
   ⟨exPath, ['A'], 2, 2, ['t','e','x','t']⟩,
   ⟨exPath, ['A',' ','>',' ','B'], 3, 3, ['#','#',' ','B']⟩,
   ⟨exPath, ['A',' ','>',' ','B'], 4, 4, ['m','o','r','e']⟩,
   ⟨exPath, ['C'], 5, 5, ['#',' ','C']⟩,
   ⟨exPath, ['C'], 6, 6, ['e','n','d']⟩]

/-- C8: a chunk's heading is the 6-level-stack heading path active at its
first line, joined with " > ", falling back to the file's base name
without extension when empty; and on the spec's worked document the chunks
covering "text", "more" and "end" carry headings "A", "A > B" and "C"
(second conjunct: the full chunking of that document, whose second, fourth
and sixth chunks are those lines with exactly those headings). -/
theorem C8_chunk_heading_path :
    (∀ (path content : Str) (chunkSize chunkOverlap : Int) (fuel : Nat)
        (cs : List chunk),
        chunkMarkdown path content chunkSize chunkOverlap fuel = some cs →
        ∀ c ∈ cs, c.Heading = headingAt path content c.StartLine) ∧
    chunkMarkdown exPath exDoc 5 0 10 = some exChunks := by
  constructor
  · intro path content chunkSize chunkOverlap fuel cs h c hc
    exact chunkGo_heading_inv path (splitSep '\n' content)
      (headingsByLine (splitSep '\n' content)) (baseNameNoExt path) _ _ fuel 0 [] cs h
      (by intro c hc; simp at hc) c hc
  · decide

/-- Witness for C8: the fourth chunk of the worked document covers line 4
("more") and its heading "A > B" is the active heading path at line 4. -/
theorem C8_chunk_heading_path_witness :
    (⟨exPath, ['A',' ','>',' ','B'], 4, 4, ['m','o','r','e']⟩ : chunk).Heading =
      headingAt exPath exDoc 4 :=
  C8_chunk_heading_path.1 exPath exDoc 5 0 10 exChunks C8_chunk_heading_path.2
    ⟨exPath, ['A',' ','>',' ','B'], 4, 4, ['m','o','r','e']⟩ (by decide)

/- ------------------------------------------------------------------ -/
/- C2: the reindex-all decision policy                                -/
/- ------------------------------------------------------------------ -/

theorem stringSliceEqual_iff : ∀ a b : List Str, stringSliceEqual a b = true ↔ a = b := by
  intro a
  induction a with
  | nil => intro b; cases b <;> simp [stringSliceEqual]
  | cons x xs ih =>
    intro b
    cases b with
    | nil => simp [stringSliceEqual]
    | cons y ys => simp [stringSliceEqual, ih]

/-- C2: the computed reindex-all flag is true exactly when the manifest is
absent, the caller requested it, or the model, chunk size, chunk overlap,
include patterns, exclude patterns (exact sequences) or collection
changed; a load failure (read or parse) yields an absent manifest rather
than an error; and changing only the chunk size forces a full rebuild. -/
theorem C2_reindex_all_policy :
    (∀ (state : Option indexState) (opts : Bool) (m : Str) (cs co : Int)
        (ip ep : List Str) (col : Str),
        computeReindexAll state opts m cs co ip ep col = true ↔
          reindexAllSpec state opts m cs co ip ep col) ∧
    (∀ (ε : Type) (e : ε) (parse : Str → Except ε indexState),
        runLoadState (Except.error e) parse = none) ∧
    (∀ (ε : Type) (data : Str) (parse : Str → Except ε indexState) (e : ε),
        parse data = Except.error e → runLoadState (Except.ok data) parse = none) ∧
    (∀ (s : indexState) (m : Str) (cs co : Int) (ip ep : List Str) (col : Str),
        s.ChunkSize ≠ cs → computeReindexAll (some s) false m cs co ip ep col = true) := by
  have hiff : ∀ (state : Option indexState) (opts : Bool) (m : Str) (cs co : Int)
      (ip ep : List Str) (col : Str),
      computeReindexAll state opts m cs co ip ep col = true ↔
        reindexAllSpec state opts m cs co ip ep col := by
    intro state opts m cs co ip ep col
    cases state with
    | none => simp [computeReindexAll, reindexAllSpec]
    | some s =>
      simp only [computeReindexAll, reindexAllSpec]
      constructor
      · intro h
        split_ifs at h with h1 h2 h3 h4 h5
        · exact Or.inr (Or.inl h1)
        · exact Or.inr (Or.inr ⟨s, rfl, Or.inl h2⟩)
        · rcases h3 with h3 | h3
          · exact Or.inr (Or.inr ⟨s, rfl, Or.inr (Or.inl h3)⟩)
          · exact Or.inr (Or.inr ⟨s, rfl, Or.inr (Or.inr (Or.inl h3))⟩)
        · rw [Bool.or_eq_true] at h4
          rcases h4 with h4 | h4
          · refine Or.inr (Or.inr ⟨s, rfl, Or.inr (Or.inr (Or.inr (Or.inl ?_)))⟩)
            intro hc
            simp [(stringSliceEqual_iff _ _).mpr hc] at h4
          · refine Or.inr (Or.inr ⟨s, rfl, Or.inr (Or.inr (Or.inr (Or.inr (Or.inl ?_))))⟩)
            intro hc
            simp [(stringSliceEqual_iff _ _).mpr hc] at h4
        · exact Or.inr (Or.inr ⟨s, rfl, Or.inr (Or.inr (Or.inr (Or.inr (Or.inr h5))))⟩)
      · intro h
        rcases h with h | h | ⟨s', hs', h⟩
        · exact absurd h (by simp)
        · simp [h]
        · have hs : s' = s := by injection hs' with hs'; exact hs'.symm
          subst hs
          split_ifs with h1 h2 h3 h4 h5
          · rfl
          · rfl
          · rfl
          · rfl
          · rfl
          · exfalso
            rcases h with h | h | h | h | h | h
            · exact h2 h
            · exact h3 (Or.inl h)
            · exact h3 (Or.inr h)
            · simp only [Bool.or_eq_true, Bool.not_eq_true', not_or] at h4
              exact h ((stringSliceEqual_iff _ _).mp (by
                have := h4.1
                simp only [Bool.not_eq_false] at this ⊢
                exact this))
            · simp only [Bool.or_eq_true, Bool.not_eq_true', not_or] at h4
              exact h ((stringSliceEqual_iff _ _).mp (by
                have := h4.2
                simp only [Bool.not_eq_false] at this ⊢
                exact this))
            · exact h5 h
  refine ⟨hiff, ?_, ?_, ?_⟩
  · intro ε e parse; rfl
  · intro ε data parse e h
    simp [runLoadState, loadIndexState, h, Except.toOption]
  · intro s m cs co ip ep col h
    exact (hiff (some s) false m cs co ip ep col).mpr
      (Or.inr (Or.inr ⟨s, rfl, Or.inr (Or.inl h)⟩))

/-- A manifest differing from the otherwise-identical configuration only
in its chunk size. -/
def exState2 : indexState := ⟨1, [], [], [], 0, 4, 0, [], [], []⟩

/-- Witness for C2: with chunk size 4 recorded and 5 configured (all else
equal), the second run computes reindexAll = true. -/
theorem C2_reindex_all_policy_witness :
    computeReindexAll (some exState2) false [] 5 0 [] [] [] = true :=
  C2_reindex_all_policy.2.2.2 exState2 [] 5 0 [] [] [] (by decide)

/- ------------------------------------------------------------------ -/
/- C3 and C10: trigger decision priority and invariants               -/
/- ------------------------------------------------------------------ -/

theorem matchPrefixF_nil : ∀ ps : List Str, (matchPrefixF [] ps).2 = false := by
  intro ps
  induction ps with
  | nil => rfl
  | cons p rest ih =>
    by_cases hp : p = []
    · simp [matchPrefixF, hp, ih]
    · cases p with
      | nil => exact absurd rfl hp
      | cons c cs => simp [matchPrefixF, hasPrefixF, hp, ih]

theorem matchKeywordLoop_nil : ∀ kws : List Str, matchKeywordLoop [] kws = [] := by
  intro kws
  induction kws with
  | nil => rfl
  | cons kw rest ih =>
    by_cases hk : kw = []
    · simp [matchKeywordLoop, hk, ih]
    · cases kw with
      | nil => exact absurd rfl hk
      | cons c cs => simp [matchKeywordLoop, toLowerStr, containsSub, hasPrefixF, hk, ih]

theorem matchKeyword_nil : ∀ kws : List Str, matchKeyword [] kws = [] := by
  intro kws
  by_cases hk : kws = []
  · simp [matchKeyword, hk]
  · simp [matchKeyword, hk, toLowerStr, matchKeywordLoop_nil]

/-- C3: force prefixes take priority over skip prefixes, which take
priority over keyword auto-matching, whatever the configuration; and
within a category the first matching non-empty entry in list order wins
(last conjunct: a successful prefix match is the first list entry that is
non-empty and prefixes the message). -/
theorem C3_trigger_priority :
    (∀ (msg : Str) (cfg : RagTriggerConfig),
        (matchPrefixF (trimSpace msg) cfg.ForcePrefixes).2 = true →
        (DecideTrigger msg cfg).ShouldSearch = true ∧
        (DecideTrigger msg cfg).Forced = true) ∧
    (∀ (msg : Str) (cfg : RagTriggerConfig),
        (matchPrefixF (trimSpace msg) cfg.ForcePrefixes).2 = false →
        (matchPrefixF (trimSpace msg) cfg.SkipPrefixes).2 = true →
        (DecideTrigger msg cfg).ShouldSearch = false ∧
        (DecideTrigger msg cfg).Skipped = true) ∧
    (∀ (msg : Str) (cfg : RagTriggerConfig),
        (matchPrefixF (trimSpace msg) cfg.ForcePrefixes).2 = false →
        (matchPrefixF (trimSpace msg) cfg.SkipPrefixes).2 = false →
        cfg.Auto = true →
        matchKeyword (trimSpace msg) cfg.AutoKeywords ≠ [] →
        (DecideTrigger msg cfg).ShouldSearch = true ∧
        (DecideTrigger msg cfg).MatchedKeyword =
          matchKeyword (trimSpace msg) cfg.AutoKeywords) ∧
    (∀ (m pr : Str) (ps : List Str),
        matchPrefixF m ps = (pr, true) →
        ∃ l r, ps = l ++ pr :: r ∧ pr ≠ [] ∧ hasPrefixF m pr = true ∧
          ∀ q ∈ l, q = [] ∨ hasPrefixF m q = false) := by
  refine ⟨?_, ?_, ?_, ?_⟩
  · intro msg cfg h
    have ht : trimSpace msg ≠ [] := by
      intro ht
      rw [ht, matchPrefixF_nil] at h
      exact Bool.false_ne_true h
    constructor <;> simp [DecideTrigger, ht, h]
  · intro msg cfg h1 h2
    have ht : trimSpace msg ≠ [] := by
      intro ht
      rw [ht, matchPrefixF_nil] at h2
      exact Bool.false_ne_true h2
    constructor <;> simp [DecideTrigger, ht, h1, h2]
  · intro msg cfg h1 h2 hauto hkw
    have ht : trimSpace msg ≠ [] := by
      intro ht
      rw [ht, matchKeyword_nil] at hkw
      exact hkw rfl
    constructor <;> simp [DecideTrigger, ht, h1, h2, hauto, hkw]
  · intro m pr ps
    induction ps with
    | nil => intro h; exact absurd (congrArg Prod.snd h) (by simp [matchPrefixF])
    | cons p rest ih =>
      intro h
      by_cases hp : p = []
      · rw [matchPrefixF, if_pos hp] at h
        obtain ⟨l, r, hlr, hpr, hm, hl⟩ := ih h
        exact ⟨p :: l, r, by rw [hlr]; rfl, hpr, hm,
          fun q hq => by
            rcases List.mem_cons.mp hq with hq | hq
            · exact Or.inl (hq ▸ hp)
            · exact hl q hq⟩
      · by_cases hm : hasPrefixF m p = true
        · rw [matchPrefixF, if_neg hp, if_pos hm] at h
          have hpr : pr = p := (congrArg Prod.fst h).symm
          subst hpr
          exact ⟨[], rest, rfl, hp, hm, by simp⟩
        · rw [matchPrefixF, if_neg hp, if_neg hm] at h
          obtain ⟨l, r, hlr, hpr, hmm, hl⟩ := ih h
          exact ⟨p :: l, r, by rw [hlr]; rfl, hpr, hmm,
            fun q hq => by
              rcases List.mem_cons.mp hq with hq | hq
              · exact Or.inr (hq ▸ Bool.not_eq_true _ ▸ eq_false_of_ne_true hm)
              · exact hl q hq⟩

/-- A trigger configuration where "/search x" matches the force prefix
"/search", the skip prefix "/s" and the keyword "x" at once. -/
def exCfg : RagTriggerConfig :=
  ⟨[['/','s','e','a','r','c','h']], [['/','s']], true, [['x']]⟩

def exMsg : Str := ['/','s','e','a','r','c','h',' ','x']

/-- Witness for C3: that message is forced even though it also matches a
skip prefix and a keyword. -/
theorem C3_trigger_priority_witness :
    (DecideTrigger exMsg exCfg).ShouldSearch = true ∧
    (DecideTrigger exMsg exCfg).Forced = true :=
  C3_trigger_priority.1 exMsg exCfg (by decide)

/-- C10: structural invariants of every trigger decision — forced and
skipped never hold together, forced implies search, skipped implies no
search, a matched keyword implies search, and a forced or skipped
decision carries no matched keyword. -/
theorem C10_trigger_decision_invariants :
    ∀ (msg : Str) (cfg : RagTriggerConfig) (d : TriggerDecision),
      DecideTrigger msg cfg = d →
      (d.Forced && d.Skipped) = false ∧
      (d.Forced = true → d.ShouldSearch = true) ∧
      (d.Skipped = true → d.ShouldSearch = false) ∧
      (d.MatchedKeyword ≠ [] → d.ShouldSearch = true) ∧
      ((d.Forced = true ∨ d.Skipped = true) → d.MatchedKeyword = []) := by
  intro msg cfg d hd
  simp only [DecideTrigger] at hd
  split at hd
  · subst hd; simp
  · split at hd
    · subst hd; simp
    · split at hd
      · subst hd; simp
      · split at hd
        · subst hd; simp
        · split at hd
          · subst hd; simp
          · subst hd; simp

/-- Witness for C10: the forced decision on the example message indeed
searches. -/
theorem C10_trigger_decision_invariants_witness :
    (DecideTrigger exMsg exCfg).ShouldSearch = true :=
  (C10_trigger_decision_invariants exMsg exCfg (DecideTrigger exMsg exCfg) rfl).2.1
    (by decide)

/- ------------------------------------------------------------------ -/
/- C9: glob filtering semantics                                       -/
/- ------------------------------------------------------------------ -/

theorem globToRegex_nil : globToRegex [] = [] := by
  rw [globToRegex.eq_def]

theorem globToRegex_star_star (p : Str) :
    globToRegex ('*' :: '*' :: p) = .starAny :: globToRegex p := by
  rw [globToRegex.eq_def]; simp

theorem globToRegex_star_single : globToRegex ['*'] = [.starNoSlash] := by
  rw [globToRegex.eq_def]; simp

theorem globToRegex_star_other (c : Char) (p : Str) (h : c ≠ '*') :
    globToRegex ('*' :: c :: p) = .starNoSlash :: globToRegex (c :: p) := by
  rw [globToRegex.eq_def]; simp [h]

theorem globToRegex_query (p : Str) :
    globToRegex ('?' :: p) = .anyChar :: globToRegex p := by
  rw [globToRegex.eq_def]; simp

theorem globToRegex_literal (c : Char) (p : Str) (h1 : c ≠ '*') (h2 : c ≠ '?') :
    globToRegex (c :: p) = .lit c :: globToRegex p := by
  rw [globToRegex.eq_def]; simp [h1, h2]

theorem globSpecMatch_nil_nil : globSpecMatch [] [] = true := by
  rw [globSpecMatch.eq_def]

theorem globSpecMatch_nil_cons (x : Char) (xs : Str) :
    globSpecMatch [] (x :: xs) = false := by
  rw [globSpecMatch.eq_def]

theorem globSpecMatch_star_star_nil (p : Str) :
    globSpecMatch ('*' :: '*' :: p) [] = globSpecMatch p [] := by
  rw [globSpecMatch.eq_def]; simp

theorem globSpecMatch_star_star_cons (p : Str) (x : Char) (xs : Str) :
    globSpecMatch ('*' :: '*' :: p) (x :: xs) =
      (globSpecMatch p (x :: xs) || globSpecMatch ('*' :: '*' :: p) xs) := by
  rw [globSpecMatch.eq_def]; simp

theorem globSpecMatch_star_single_nil : globSpecMatch ['*'] [] = true := by
  rw [globSpecMatch.eq_def]; simp

theorem globSpecMatch_star_single_cons (x : Char) (xs : Str) :
    globSpecMatch ['*'] (x :: xs) = (x ≠ '/' && globSpecMatch ['*'] xs) := by
  rw [globSpecMatch.eq_def]; simp

theorem globSpecMatch_star_other_nil (c : Char) (p : Str) (h : c ≠ '*') :
    globSpecMatch ('*' :: c :: p) [] = globSpecMatch (c :: p) [] := by
  rw [globSpecMatch.eq_def]; simp [h]

theorem globSpecMatch_star_other_cons (c : Char) (p : Str) (x : Char) (xs : Str)
    (h : c ≠ '*') :
    globSpecMatch ('*' :: c :: p) (x :: xs) =
      (globSpecMatch (c :: p) (x :: xs) ||
        (x ≠ '/' && globSpecMatch ('*' :: c :: p) xs)) := by
  rw [globSpecMatch.eq_def]; simp [h]

theorem globSpecMatch_query_nil (p : Str) : globSpecMatch ('?' :: p) [] = false := by
  rw [globSpecMatch.eq_def]; simp

theorem globSpecMatch_query_cons (p : Str) (x : Char) (xs : Str) :
    globSpecMatch ('?' :: p) (x :: xs) = globSpecMatch p xs := by
  rw [globSpecMatch.eq_def]; simp

theorem globSpecMatch_literal_nil (c : Char) (p : Str) (h1 : c ≠ '*') (h2 : c ≠ '?') :
    globSpecMatch (c :: p) [] = false := by
  rw [globSpecMatch.eq_def]; simp [h1, h2]

theorem globSpecMatch_literal_cons (c : Char) (p : Str) (x : Char) (xs : Str)
    (h1 : c ≠ '*') (h2 : c ≠ '?') :
    globSpecMatch (c :: p) (x :: xs) = (c = x && globSpecMatch p xs) := by
  rw [globSpecMatch.eq_def]; simp [h1, h2]

theorem rmatch_glob_spec_aux :
    ∀ (n : Nat) (p s : Str), p.length + s.length ≤ n → '\n' ∉ s →
      rmatch (globToRegex p) s = globSpecMatch p s := by
  intro n
  induction n with
  | zero =>
    intro p s hlen _
    cases p with
    | nil => cases s with
      | nil => rw [globToRegex_nil, globSpecMatch_nil_nil]; simp [rmatch]
      | cons x xs => rw [globToRegex_nil, globSpecMatch_nil_cons]; simp [rmatch]
    | cons c p' =>
      exfalso
      simp only [List.length_cons] at hlen
      omega
  | succ n ih =>
    intro p s hlen hnl
    cases p with
    | nil => cases s with
      | nil => rw [globToRegex_nil, globSpecMatch_nil_nil]; simp [rmatch]
      | cons x xs => rw [globToRegex_nil, globSpecMatch_nil_cons]; simp [rmatch]
    | cons c p' =>
      by_cases hc : c = '*'
      · subst hc
        cases p' with
        | nil =>
          cases s with
          | nil =>
            rw [globToRegex_star_single, globSpecMatch_star_single_nil]
            simp [rmatch]
          | cons x xs =>
            have hrec := ih ['*'] xs
              (by simp only [List.length_cons] at hlen ⊢; omega)
              (fun h => hnl (List.mem_cons_of_mem _ h))
            rw [globToRegex_star_single] at hrec ⊢
            rw [globSpecMatch_star_single_cons]
            simp [rmatch, hrec]
        | cons c2 p2 =>
          by_cases hc2 : c2 = '*'
          · subst hc2
            cases s with
            | nil =>
              have hrec := ih p2 []
                (by simp only [List.length_cons, List.length_nil] at hlen ⊢; omega)
                (by simp)
              rw [globToRegex_star_star, globSpecMatch_star_star_nil]
              simp [rmatch, hrec]
            | cons x xs =>
              have hx : x ≠ '\n' := fun h => hnl (h ▸ List.mem_cons_self _ _)
              have h1 := ih p2 (x :: xs)
                (by simp only [List.length_cons] at hlen ⊢; omega) hnl
              have h2 := ih ('*' :: '*' :: p2) xs
                (by simp only [List.length_cons] at hlen ⊢; omega)
                (fun h => hnl (List.mem_cons_of_mem _ h))
              rw [globToRegex_star_star] at h2 ⊢
              rw [globSpecMatch_star_star_cons]
              simp [rmatch, h1, h2, hx]
          · cases s with
            | nil =>
              have hrec := ih (c2 :: p2) []
                (by simp only [List.length_cons, List.length_nil] at hlen ⊢; omega)
                (by simp)
              rw [globToRegex_star_other c2 p2 hc2, globSpecMatch_star_other_nil c2 p2 hc2]
              simp [rmatch, hrec]
            | cons x xs =>
              have h1 := ih (c2 :: p2) (x :: xs)
                (by simp only [List.length_cons] at hlen ⊢; omega) hnl
              have h2 := ih ('*' :: c2 :: p2) xs
                (by simp only [List.length_cons] at hlen ⊢; omega)
                (fun h => hnl (List.mem_cons_of_mem _ h))
              rw [globToRegex_star_other c2 p2 hc2] at h2 ⊢
              rw [globSpecMatch_star_other_cons c2 p2 x xs hc2]
              simp [rmatch, h1, h2]
      · by_cases hq : c = '?'
        · subst hq
          cases s with
          | nil =>
            rw [globToRegex_query, globSpecMatch_query_nil]
            simp [rmatch]
          | cons x xs =>
            have hx : x ≠ '\n' := fun h => hnl (h ▸ List.mem_cons_self _ _)
            have hrec := ih p' xs
              (by simp only [List.length_cons] at hlen ⊢; omega)
              (fun h => hnl (List.mem_cons_of_mem _ h))
            rw [globToRegex_query, globSpecMatch_query_cons]
            simp [rmatch, hx, hrec]
        · cases s with
          | nil =>
            rw [globToRegex_literal c p' hc hq, globSpecMatch_literal_nil c p' hc hq]
            simp [rmatch]
          | cons x xs =>
            have hrec := ih p' xs
              (by simp only [List.length_cons] at hlen ⊢; omega)
              (fun h => hnl (List.mem_cons_of_mem _ h))
            rw [globToRegex_literal c p' hc hq, globSpecMatch_literal_cons c p' x xs hc hq]
            simp [rmatch, hrec]

/-- Counterexample to C9 as stated: the compiled `?` does not match a
newline character (RE2's `.`), while the claimed semantics ("`?` matches
exactly one character") does, already on the pattern "a?b" against the
path "a\nb". -/
theorem C9_glob_counterexample :
    ¬ (rmatch (globToRegex ['a','?','b']) ['a','\n','b'] =
       globSpecMatch ['a','?','b'] ['a','\n','b']) := by
  rw [globToRegex_literal 'a' ['?','b'] (by decide) (by decide),
    globToRegex_query, globToRegex_literal 'b' [] (by decide) (by decide),
    globToRegex_nil]
  rw [globSpecMatch_literal_cons 'a' ['?','b'] 'a' ['\n','b'] (by decide) (by decide),
    globSpecMatch_query_cons, globSpecMatch_literal_cons 'b' [] 'b' [] (by decide) (by decide),
    globSpecMatch_nil_nil]
  simp [rmatch]

/-- C9 (amended): on paths free of newline characters, the compiled
patterns have exactly the claimed semantics (`*` within a segment, `**`
across segments, `?` one character, everything else literal); a path
matching any exclude pattern is rejected whatever the include patterns
match; and with an empty include list every non-excluded path passes. -/
theorem C9_glob_filter_semantics :
    (∀ (p s : Str), '\n' ∉ s → rmatch (globToRegex p) s = globSpecMatch p s) ∧
    (∀ (rel : Str) (ip ep : List Str),
        matchesAny rel (compilePatterns ep) = true → fileAccepted rel ip ep = false) ∧
    (∀ (rel : Str) (ep : List Str),
        fileAccepted rel [] ep = !matchesAny rel (compilePatterns ep)) := by
  refine ⟨?_, ?_, ?_⟩
  · intro p s hnl
    exact rmatch_glob_spec_aux (p.length + s.length) p s le_rfl hnl
  · intro rel ip ep h
    simp [fileAccepted, h]
  · intro rel ep
    cases hm : matchesAny rel (compilePatterns ep) <;>
      simp [fileAccepted, compilePatterns, hm]

/-- Witness for C9: the compiled "**​/a*.md"-style pattern agrees with the
spec semantics on the newline-free path "x/y/ab.md" (both match). -/
theorem C9_glob_filter_semantics_witness :
    rmatch (globToRegex ['*','*','/','a','*','.','m','d'])
        ['x','/','y','/','a','b','.','m','d'] =
      globSpecMatch ['*','*','/','a','*','.','m','d']
        ['x','/','y','/','a','b','.','m','d'] :=
  C9_glob_filter_semantics.1 ['*','*','/','a','*','.','m','d']
    ['x','/','y','/','a','b','.','m','d'] (by decide)

/- ------------------------------------------------------------------ -/
/- Observations on run traces and results                             -/
/- ------------------------------------------------------------------ -/

/-- Whether a trace event is the manifest write. -/
def RagCall.isSaveB {α : Type} : RagCall α → Bool
  | .saveState _ => true
  | _ => false

/-- Whether a trace event is a delete-by-path for the given path. -/
def isDeleteForB {α : Type} (p : Str) : RagCall α → Bool
  | .deleteByPath q => q = p
  | _ => false

/-- Whether a trace event reads, deletes, embeds or upserts content of the
file with the given relative and absolute paths. -/
def evTouchesB {α : Type} (rel abs : Str) : RagCall α → Bool
  | .readFile p => p = abs
  | .deleteByPath p => p = rel
  | .embedBatch p _ => p = rel
  | .upsert pts => pts.any (fun pt => pt.Payload.path = rel)
  | _ => false

/-- Events processFile may append on behalf of a file with relative path
`rel` and absolute path `abs` (the manifest write never occurs there). -/
def evFromFile {α : Type} (rel abs : Str) : RagCall α → Prop
  | .readFile p => p = abs
  | .deleteByPath p => p = rel
  | .embedBatch p _ => p = rel
  | .upsert pts => ∀ pt ∈ pts, pt.Payload.path = rel
  | .ensureCollection _ _ => True
  | .saveState _ => False

/-- The context carried by either side of a phase result. -/
def ctxOfE {α ε : Type} : Except (RunError ε × RunCtx α) (RunCtx α) → RunCtx α
  | .ok c => c
  | .error (_, c) => c

/-- The final trace of a successfully completed run. -/
def runOkTrace {α ε : Type} : Option (Outcome α ε) → Option (List (RagCall α))
  | some (.ok c) => some c.trace
  | _ => none

/-- The RemovedFiles counter of a successfully completed run. -/
def runOkRemoved {α ε : Type} : Option (Outcome α ε) → Option Nat
  | some (.ok c) => some c.summary.RemovedFiles
  | _ => none

/-- Whether the trace has an upsert containing a vector of dimension n. -/
def hasUpsertVecLen {α : Type} (n : Nat) (tr : List (RagCall α)) : Bool :=
  tr.any (fun ev => match ev with
    | .upsert pts => pts.any (fun pt => pt.Vector.length = n)
    | _ => false)

/- ------------------------------------------------------------------ -/
/- Association-list map lemmas                                        -/
/- ------------------------------------------------------------------ -/

theorem lookupF_setKey_self : ∀ (l : List (Str × Int)) (k : Str) (v : Int),
    lookupF (setKey l k v) k = some v := by
  intro l k v
  induction l with
  | nil => simp [setKey, lookupF]
  | cons e rest ih =>
    by_cases h : e.1 = k
    · simp [setKey, h, lookupF]
    · simp [setKey, h, lookupF, ih]

theorem lookupF_setKey_other : ∀ (l : List (Str × Int)) (k k' : Str) (v : Int),
    k' ≠ k → lookupF (setKey l k v) k' = lookupF l k' := by
  intro l k k' v hne
  induction l with
  | nil => simp [setKey, lookupF, Ne.symm hne]
  | cons e rest ih =>
    obtain ⟨ek, ev⟩ := e
    by_cases h : ek = k
    · rw [setKey, if_pos h, lookupF, lookupF, if_neg (Ne.symm hne), if_neg (h ▸ Ne.symm hne)]
    · rw [setKey, if_neg h, lookupF, lookupF]
      by_cases h3 : ek = k'
      · rw [if_pos h3, if_pos h3]
      · rw [if_neg h3, if_neg h3, ih]

theorem removeKey_sublist : ∀ (l : List (Str × Int)) (k : Str),
    List.Sublist (removeKey l k) l := by
  intro l k
  induction l with
  | nil => simp [removeKey]
  | cons e rest ih =>
    obtain ⟨ek, ev⟩ := e
    by_cases h : ek = k
    · rw [removeKey, if_pos h]
      exact List.sublist_cons_self _ rest
    · rw [removeKey, if_neg h]
      exact List.Sublist.cons₂ _ ih

theorem lookupF_eq_none_of_not_mem : ∀ (l : List (Str × Int)) (k : Str),
    k ∉ l.map Prod.fst → lookupF l k = none := by
  intro l k
  induction l with
  | nil => intro _; rfl
  | cons e rest ih =>
    intro h
    simp only [List.map_cons, List.mem_cons] at h
    push_neg at h
    have h1 : e.1 ≠ k := fun hh => h.1 hh.symm
    simp [lookupF, h1, ih h.2]

theorem lookupF_removeKey_self : ∀ (l : List (Str × Int)) (k : Str),
    (l.map Prod.fst).Nodup → lookupF (removeKey l k) k = none := by
  intro l k
  induction l with
  | nil => intro _; rfl
  | cons e rest ih =>
    intro hnd
    simp only [List.map_cons, List.nodup_cons] at hnd
    by_cases h : e.1 = k
    · rw [removeKey, if_pos h]
      exact lookupF_eq_none_of_not_mem rest k (h ▸ hnd.1)
    · rw [removeKey, if_neg h]
      simp [lookupF, h, ih hnd.2]

theorem lookupF_removeKey_other : ∀ (l : List (Str × Int)) (k k' : Str),
    k' ≠ k → lookupF (removeKey l k) k' = lookupF l k' := by
  intro l k k' hne
  induction l with
  | nil => rfl
  | cons e rest ih =>
    by_cases h : e.1 = k
    · rw [removeKey, if_pos h]
      have h2 : e.1 ≠ k' := fun hh => hne (hh ▸ h ▸ rfl)
      simp [lookupF, h2]
    · rw [removeKey, if_neg h]
      by_cases h3 : e.1 = k'
      · simp [lookupF, h3]
      · simp [lookupF, h3, ih]

/- ------------------------------------------------------------------ -/
/- Phase lemmas for the run                                           -/
/- ------------------------------------------------------------------ -/

theorem ensureCollectionGo_spec {α ε : Type} (col : Collab α ε) (recreate : Bool)
    (dim : Int) (c : RunCtx α) :
    ∃ Δ, (ctxOfE (ensureCollectionGo col recreate dim c)).trace = c.trace ++ Δ ∧
      (∀ ev ∈ Δ, ∃ d r, ev = RagCall.ensureCollection d r) ∧
      (ctxOfE (ensureCollectionGo col recreate dim c)).st.Files = c.st.Files ∧
      (ctxOfE (ensureCollectionGo col recreate dim c)).summary = c.summary := by
  by_cases h : dim ≤ 0
  · refine ⟨[], ?_, ?_, ?_, ?_⟩ <;> simp [ensureCollectionGo, h, ctxOfE]
  · cases hor : col.ensureCollection dim recreate with
    | error e =>
      refine ⟨[RagCall.ensureCollection dim recreate], ?_, ?_, ?_, ?_⟩
      · simp [ensureCollectionGo, h, hor, ctxOfE, emitCall]
      · intro ev hev
        rw [List.mem_singleton] at hev
        exact ⟨dim, recreate, hev⟩
      · simp [ensureCollectionGo, h, hor, ctxOfE, emitCall]
      · simp [ensureCollectionGo, h, hor, ctxOfE, emitCall]
    | ok u =>
      refine ⟨[RagCall.ensureCollection dim recreate], ?_, ?_, ?_, ?_⟩
      · simp [ensureCollectionGo, h, hor, ctxOfE, emitCall]
      · intro ev hev
        rw [List.mem_singleton] at hev
        exact ⟨dim, recreate, hev⟩
      · simp [ensureCollectionGo, h, hor, ctxOfE, emitCall]
      · simp [ensureCollectionGo, h, hor, ctxOfE, emitCall]

theorem removalPass_trace {α ε : Type} (col : Collab α ε) (cur : List Str) :
    ∀ (entries : List (Str × Int)) (c : RunCtx α)
      (r : Except (RunError ε × RunCtx α) (RunCtx α)),
      removalPass col cur entries c = r →
      ∃ Δ, (ctxOfE r).trace = c.trace ++ Δ ∧
        ∀ ev ∈ Δ, ∃ p, ev = RagCall.deleteByPath p ∧ p ∉ cur := by
  intro entries
  induction entries with
  | nil =>
    intro c r h
    simp only [removalPass] at h
    cases h
    exact ⟨[], by simp [ctxOfE], by simp⟩
  | cons e rest ih =>
    intro c r h
    obtain ⟨p, mt⟩ := e
    by_cases hp : p ∈ cur
    · simp only [removalPass, if_pos hp] at h
      exact ih c r h
    · simp only [removalPass, if_neg hp] at h
      cases hor : col.deleteByPath p with
      | error e2 =>
        simp only [hor] at h
        cases h
        exact ⟨[RagCall.deleteByPath p], by simp [ctxOfE, emitCall],
          by simp; exact hp⟩
      | ok u =>
        simp only [hor] at h
        obtain ⟨Δ, hΔ, hall⟩ := ih _ r h
        refine ⟨RagCall.deleteByPath p :: Δ, ?_, ?_⟩
        · rw [hΔ]; simp [emitCall]
        · intro ev hev
          rcases List.mem_cons.mp hev with hev | hev
          · exact ⟨p, hev, hp⟩
          · exact hall ev hev

theorem removalPass_ok_spec {α ε : Type} (col : Collab α ε) (cur : List Str) :
    ∀ (entries : List (Str × Int)) (c c' : RunCtx α),
      removalPass col cur entries c = .ok c' →
      (c.st.Files.map Prod.fst).Nodup →
      (∀ k, k ∈ cur → lookupF c'.st.Files k = lookupF c.st.Files k) ∧
      (∀ k, k ∉ entries.map Prod.fst → lookupF c'.st.Files k = lookupF c.st.Files k) ∧
      ((entries.map Prod.fst).Nodup → ∀ p mt, (p, mt) ∈ entries → p ∉ cur →
        lookupF c'.st.Files p = none) ∧
      (c'.st.Files.map Prod.fst).Nodup ∧
      c'.trace = c.trace ++ (entries.filter (fun e => !decide (e.1 ∈ cur))).map
        (fun e => RagCall.deleteByPath e.1) ∧
      c'.summary.RemovedFiles = c.summary.RemovedFiles +
        entries.countP (fun e => !decide (e.1 ∈ cur)) ∧
      c'.summary.SkippedFiles = c.summary.SkippedFiles := by
  intro entries
  induction entries with
  | nil =>
    intro c c' h hnd
    simp only [removalPass] at h
    cases h
    refine ⟨fun k _ => rfl, fun k _ => rfl, ?_, hnd, by simp, by simp, rfl⟩
    intro _ p mt hmem
    simp at hmem
  | cons e rest ih =>
    intro c c' h hnd
    obtain ⟨p, mt⟩ := e
    by_cases hp : p ∈ cur
    · simp only [removalPass, if_pos hp] at h
      obtain ⟨ha, hb, hc, hd, he, hf, hg⟩ := ih c c' h hnd
      refine ⟨ha, ?_, ?_, hd, ?_, ?_, hg⟩
      · intro k hk
        simp only [List.map_cons, List.mem_cons] at hk
        push_neg at hk
        exact hb k hk.2
      · intro hnd2 q v hmem hq
        rcases List.mem_cons.mp hmem with hmem | hmem
        · exfalso; injection hmem with h1 _; exact hq (h1 ▸ hp)
        · simp only [List.map_cons, List.nodup_cons] at hnd2
          exact hc hnd2.2 q v hmem hq
      · rw [he]
        congr 1
        simp [List.filter_cons, hp]
      · rw [hf]
        congr 1
        simp [List.countP_cons, hp]
    · simp only [removalPass, if_neg hp] at h
      cases hor : col.deleteByPath p with
      | error e2 => simp only [hor] at h; cases h
      | ok u =>
        simp only [hor] at h
        have hnd2 : (((removeKey c.st.Files p).map Prod.fst)).Nodup :=
          hnd.sublist (List.Sublist.map _ (removeKey_sublist _ _))
        obtain ⟨ha, hb, hc, hd, he, hf, hg⟩ := ih _ c' h hnd2
        refine ⟨?_, ?_, ?_, hd, ?_, ?_, hg⟩
        · intro k hk
          rw [ha k hk]
          exact lookupF_removeKey_other _ _ _ (fun hkp => hp (hkp ▸ hk))
        · intro k hk
          simp only [List.map_cons, List.mem_cons] at hk
          push_neg at hk
          rw [hb k hk.2]
          exact lookupF_removeKey_other _ _ _ hk.1
        · intro hnd3 q v hmem hq
          simp only [List.map_cons, List.nodup_cons] at hnd3
          rcases List.mem_cons.mp hmem with hmem | hmem
          · injection hmem with h1 _
            subst h1
            have hqrest : q ∉ rest.map Prod.fst := hnd3.1
            rw [hb q hqrest]
            exact lookupF_removeKey_self _ _ hnd
          · exact hc hnd3.2 q v hmem hq
        · rw [he]
          simp only [emitCall, List.filter_cons, hp]
          simp [List.append_assoc]
        · rw [hf]
          simp only [List.countP_cons, emitCall]
          simp [hp]
          omega


theorem chunkGo_path_inv (path : Str) (lines headings : List Str)
    (fallback : Str) (size overlap : Nat) : ∀ (fuel i : Nat)
    (acc cs : List chunk),
    chunkGo path lines headings fallback size overlap fuel i acc = some cs →
    (∀ c ∈ acc, c.Path = path) → ∀ c ∈ cs, c.Path = path := by
  intro fuel
  induction fuel with
  | zero => intro i acc cs h; simp [chunkGo] at h
  | succ n ih =>
    intro i acc cs h hacc
    simp only [chunkGo] at h
    by_cases hi : i < lines.length
    · rw [if_pos hi] at h
      by_cases hn : scanLen size 0 (lines.drop i) = 0
      · rw [if_pos hn] at h
        injection h with h
        subst h
        intro c hc
        exact hacc c (List.mem_reverse.mp hc)
      · rw [if_neg hn] at h
        have hnew : ∀ c ∈ (if trimSpace (List.intercalate ['\n']
              ((lines.drop i).take (scanLen size 0 (lines.drop i)))) = [] then acc
            else chunk.mk path
              (if headings.getD i [] = [] then fallback else headings.getD i [])
              (i + 1) (i + scanLen size 0 (lines.drop i))
              (trimSpace (List.intercalate ['\n']
                ((lines.drop i).take (scanLen size 0 (lines.drop i))))) :: acc),
            c.Path = path := by
          intro c hc
          by_cases ht : trimSpace (List.intercalate ['\n']
              ((lines.drop i).take (scanLen size 0 (lines.drop i)))) = []
          · rw [if_pos ht] at hc
            exact hacc c hc
          · rw [if_neg ht] at hc
            rcases List.mem_cons.mp hc with hc | hc
            · subst hc; rfl
            · exact hacc c hc
        by_cases he : i + scanLen size 0 (lines.drop i) ≥ lines.length
        · rw [if_pos he] at h
          injection h with h
          subst h
          intro c hc
          exact hnew c (List.mem_reverse.mp hc)
        · rw [if_neg he] at h
          exact ih _ _ _ h hnew
    · rw [if_neg hi] at h
      injection h with h
      subst h
      intro c hc
      exact hacc c (List.mem_reverse.mp hc)

theorem chunkMarkdown_path (path content : Str) (chunkSize chunkOverlap : Int)
    (fuel : Nat) (cs : List chunk)
    (h : chunkMarkdown path content chunkSize chunkOverlap fuel = some cs) :
    ∀ c ∈ cs, c.Path = path :=
  chunkGo_path_inv path _ _ _ _ _ fuel 0 [] cs h (by intro c hc; simp at hc)

theorem batchesAux_mem {χ : Type} : ∀ (fuel bs : Nat) (l : List χ)
    (b : List χ), b ∈ batchesAux fuel bs l → ∀ x ∈ b, x ∈ l := by
  intro fuel
  induction fuel with
  | zero => intro bs l b hb; simp [batchesAux] at hb
  | succ n ih =>
    intro bs l b hb x hx
    cases l with
    | nil => simp [batchesAux] at hb
    | cons y t =>
      simp only [batchesAux] at hb
      rcases List.mem_cons.mp hb with hb | hb
      · subst hb
        exact List.mem_of_mem_take hx
      · exact List.mem_of_mem_drop (ih bs _ b hb x hx)

theorem batchesOf_mem {χ : Type} (bs : Nat) (l : List χ) (b : List χ)
    (hb : b ∈ batchesOf bs l) : ∀ x ∈ b, x ∈ l :=
  batchesAux_mem l.length bs l b hb

theorem processBatch_trace {α ε : Type} (col : Collab α ε) (cfgDim : Int)
    (reindexAll : Bool) (rel abs : Str) (mt : Int) (batch : List chunk)
    (c : RunCtx α) (r : Except (RunError ε × RunCtx α) (RunCtx α))
    (h : processBatch col cfgDim reindexAll rel mt batch c = r)
    (hpath : ∀ ch ∈ batch, ch.Path = rel) :
    ∃ Δ, (ctxOfE r).trace = c.trace ++ Δ ∧ (∀ ev ∈ Δ, evFromFile rel abs ev) ∧
      (ctxOfE r).st.Files = c.st.Files ∧
      (ctxOfE r).summary.SkippedFiles = c.summary.SkippedFiles ∧
      (ctxOfE r).summary.RemovedFiles = c.summary.RemovedFiles := by
  simp only [processBatch, emitCall] at h
  cases hemb : col.embedBatch (batch.map fun ch => ch.Content) with
  | error e =>
    rw [hemb] at h
    cases h
    refine ⟨[RagCall.embedBatch rel (batch.map fun ch => ch.Content)],
      by simp [ctxOfE], ?_, by simp [ctxOfE], by simp [ctxOfE], by simp [ctxOfE]⟩
    intro ev hev
    rw [List.mem_singleton] at hev
    subst hev
    simp [evFromFile]
  | ok embeddings =>
    rw [hemb] at h
    simp only [] at h
    by_cases hlen : embeddings.length ≠ batch.length
    · rw [if_pos hlen] at h
      cases h
      refine ⟨[RagCall.embedBatch rel (batch.map fun ch => ch.Content)],
        by simp [ctxOfE], ?_, by simp [ctxOfE], by simp [ctxOfE], by simp [ctxOfE]⟩
      intro ev hev
      rw [List.mem_singleton] at hev
      subst hev
      simp [evFromFile]
    · rw [if_neg hlen] at h
      have hpoints : ∀ pt ∈ (batch.zip embeddings).map (fun p =>
          QdrantPoint.mk (hashPointID rel p.1.StartLine p.1.EndLine) p.2
            ⟨p.1.Path, p.1.Heading, p.1.StartLine, p.1.EndLine, p.1.Content, mt⟩),
          pt.Payload.path = rel := by
        intro pt hpt
        rw [List.mem_map] at hpt
        obtain ⟨pr, hpr, hpt⟩ := hpt
        subst hpt
        exact hpath pr.1 (List.of_mem_zip hpr).1
      -- dimension-resolution analysis
      by_cases hdim : ({ c with trace := c.trace ++
          [RagCall.embedBatch rel (batch.map fun ch => ch.Content)] } :
          RunCtx α).st.EmbeddingDimension = 0
      · rw [if_pos hdim] at h
        by_cases hmis : cfgDim > 0 ∧ cfgDim ≠ ((embeddings.headD []).length : Int)
        · rw [if_pos hmis] at h
          cases h
          refine ⟨[RagCall.embedBatch rel (batch.map fun ch => ch.Content)],
            by simp [ctxOfE], ?_, by simp [ctxOfE], by simp [ctxOfE], by simp [ctxOfE]⟩
          intro ev hev
          rw [List.mem_singleton] at hev
          subst hev
          simp [evFromFile]
        · rw [if_neg hmis] at h
          obtain ⟨Δ2, ht2, hens2, hf2, hs2⟩ := ensureCollectionGo_spec col reindexAll
            ((embeddings.headD []).length : Int)
            ({ c with trace := c.trace ++
              [RagCall.embedBatch rel (batch.map fun ch => ch.Content)] })
          cases hens : ensureCollectionGo col reindexAll
              ((embeddings.headD []).length : Int)
              ({ c with trace := c.trace ++
                [RagCall.embedBatch rel (batch.map fun ch => ch.Content)] }) with
          | error ec =>
            rw [hens] at h
            cases h
            rw [hens] at ht2 hf2 hs2
            obtain ⟨e2, cx⟩ := ec
            refine ⟨RagCall.embedBatch rel (batch.map fun ch => ch.Content) :: Δ2,
              ?_, ?_, ?_, ?_, ?_⟩
            · simpa [ctxOfE] using ht2
            · intro ev hev
              rcases List.mem_cons.mp hev with hev | hev
              · subst hev; simp [evFromFile]
              · obtain ⟨d, rc, hev⟩ := hens2 ev hev
                subst hev; simp [evFromFile]
            · simpa [ctxOfE] using hf2
            · simp only [ctxOfE] at hs2 ⊢
              rw [hs2]
            · simp only [ctxOfE] at hs2 ⊢
              rw [hs2]
          | ok c2 =>
            rw [hens] at h
            rw [hens] at ht2 hf2 hs2
            simp only [ctxOfE] at ht2 hf2 hs2
            cases hup : col.upsert ((batch.zip embeddings).map (fun p =>
                QdrantPoint.mk (hashPointID rel p.1.StartLine p.1.EndLine) p.2
                  ⟨p.1.Path, p.1.Heading, p.1.StartLine, p.1.EndLine, p.1.Content, mt⟩)) with
            | error e3 =>
              rw [hup] at h
              cases h
              refine ⟨RagCall.embedBatch rel (batch.map fun ch => ch.Content) :: (Δ2 ++
                [RagCall.upsert ((batch.zip embeddings).map (fun p =>
                  QdrantPoint.mk (hashPointID rel p.1.StartLine p.1.EndLine) p.2
                    ⟨p.1.Path, p.1.Heading, p.1.StartLine, p.1.EndLine, p.1.Content, mt⟩))]),
                ?_, ?_, ?_, ?_, ?_⟩
              · simp only [ctxOfE]
                rw [ht2]
                simp
              · intro ev hev
                rcases List.mem_cons.mp hev with hev | hev
                · subst hev; simp [evFromFile]
                · rcases List.mem_append.mp hev with hev | hev
                  · obtain ⟨d, rc, hev⟩ := hens2 ev hev
                    subst hev; simp [evFromFile]
                  · rw [List.mem_singleton] at hev
                    subst hev
                    simpa [evFromFile] using hpoints
              · simp only [ctxOfE]
                rw [hf2]
              · simp only [ctxOfE]
                rw [hs2]
              · simp only [ctxOfE]
                rw [hs2]
            | ok u =>
              rw [hup] at h
              cases h
              refine ⟨RagCall.embedBatch rel (batch.map fun ch => ch.Content) :: (Δ2 ++
                [RagCall.upsert ((batch.zip embeddings).map (fun p =>
                  QdrantPoint.mk (hashPointID rel p.1.StartLine p.1.EndLine) p.2
                    ⟨p.1.Path, p.1.Heading, p.1.StartLine, p.1.EndLine, p.1.Content, mt⟩))]),
                ?_, ?_, ?_, ?_, ?_⟩
              · simp only [ctxOfE]
                rw [ht2]
                simp
              · intro ev hev
                rcases List.mem_cons.mp hev with hev | hev
                · subst hev; simp [evFromFile]
                · rcases List.mem_append.mp hev with hev | hev
                  · obtain ⟨d, rc, hev⟩ := hens2 ev hev
                    subst hev; simp [evFromFile]
                  · rw [List.mem_singleton] at hev
                    subst hev
                    simpa [evFromFile] using hpoints
              · simp only [ctxOfE]
                rw [hf2]
              · simp only [ctxOfE]
                rw [hs2]
              · simp only [ctxOfE]
                rw [hs2]
      · rw [if_neg hdim] at h
        cases hup : col.upsert ((batch.zip embeddings).map (fun p =>
            QdrantPoint.mk (hashPointID rel p.1.StartLine p.1.EndLine) p.2
              ⟨p.1.Path, p.1.Heading, p.1.StartLine, p.1.EndLine, p.1.Content, mt⟩)) with
        | error e3 =>
          rw [hup] at h
          cases h
          refine ⟨[RagCall.embedBatch rel (batch.map fun ch => ch.Content),
            RagCall.upsert ((batch.zip embeddings).map (fun p =>
              QdrantPoint.mk (hashPointID rel p.1.StartLine p.1.EndLine) p.2
                ⟨p.1.Path, p.1.Heading, p.1.StartLine, p.1.EndLine, p.1.Content, mt⟩))],
            by simp [ctxOfE], ?_, by simp [ctxOfE], by simp [ctxOfE], by simp [ctxOfE]⟩
          intro ev hev
          rcases List.mem_cons.mp hev with hev | hev
          · subst hev; simp [evFromFile]
          · rw [List.mem_singleton] at hev
            subst hev
            simpa [evFromFile] using hpoints
        | ok u =>
          rw [hup] at h
          cases h
          refine ⟨[RagCall.embedBatch rel (batch.map fun ch => ch.Content),
            RagCall.upsert ((batch.zip embeddings).map (fun p =>
              QdrantPoint.mk (hashPointID rel p.1.StartLine p.1.EndLine) p.2
                ⟨p.1.Path, p.1.Heading, p.1.StartLine, p.1.EndLine, p.1.Content, mt⟩))],
            by simp [ctxOfE], ?_, by simp [ctxOfE], by simp [ctxOfE], by simp [ctxOfE]⟩
          intro ev hev
          rcases List.mem_cons.mp hev with hev | hev
          · subst hev; simp [evFromFile]
          · rw [List.mem_singleton] at hev
            subst hev
            simpa [evFromFile] using hpoints

theorem processBatches_trace {α ε : Type} (col : Collab α ε) (cfgDim : Int)
    (reindexAll : Bool) (rel abs : Str) (mt : Int) :
    ∀ (bs : List (List chunk)) (c : RunCtx α)
      (r : Except (RunError ε × RunCtx α) (RunCtx α)),
      processBatches col cfgDim reindexAll rel mt bs c = r →
      (∀ b ∈ bs, ∀ ch ∈ b, ch.Path = rel) →
      ∃ Δ, (ctxOfE r).trace = c.trace ++ Δ ∧ (∀ ev ∈ Δ, evFromFile rel abs ev) ∧
        (ctxOfE r).st.Files = c.st.Files ∧
        (ctxOfE r).summary.SkippedFiles = c.summary.SkippedFiles ∧
        (ctxOfE r).summary.RemovedFiles = c.summary.RemovedFiles := by
  intro bs
  induction bs with
  | nil =>
    intro c r h _
    simp only [processBatches] at h
    cases h
    exact ⟨[], by simp [ctxOfE], by simp, rfl, rfl, rfl⟩
  | cons b rest ih =>
    intro c r h hpaths
    simp only [processBatches] at h
    cases hb : processBatch col cfgDim reindexAll rel mt b c with
    | error ec =>
      rw [hb] at h
      cases h
      obtain ⟨Δ, ht, hev, hf, hs, hr⟩ := processBatch_trace col cfgDim reindexAll
        rel abs mt b c _ hb (hpaths b (List.mem_cons_self _ _))
      exact ⟨Δ, ht, hev, hf, hs, hr⟩
    | ok c2 =>
      rw [hb] at h
      obtain ⟨Δ1, ht1, hev1, hf1, hs1, hr1⟩ := processBatch_trace col cfgDim reindexAll
        rel abs mt b c _ hb (hpaths b (List.mem_cons_self _ _))
      obtain ⟨Δ2, ht2, hev2, hf2, hs2, hr2⟩ := ih c2 r h
        (fun b2 hb2 => hpaths b2 (List.mem_cons_of_mem _ hb2))
      simp only [ctxOfE] at ht1 hf1 hs1 hr1
      refine ⟨Δ1 ++ Δ2, ?_, ?_, ?_, ?_, ?_⟩
      · rw [ht2, ht1, List.append_assoc]
      · intro ev hev
        rcases List.mem_append.mp hev with hev | hev
        · exact hev1 ev hev
        · exact hev2 ev hev
      · rw [hf2, hf1]
      · rw [hs2, hs1]
      · rw [hr2, hr1]

/-- The exact result of processFile on a skipped file: only the skip
counter moves. -/
theorem processFile_skip {α ε : Type} (col : Collab α ε) (cfg : RagConfigM)
    (reindexAll : Bool) (bs fuel : Nat) (f : fileEntry) (c : RunCtx α)
    (hskip : (!reindexAll) = true ∧ lookupF c.st.Files f.RelPath = some f.MTime) :
    processFile col cfg reindexAll bs fuel f c =
      some (.ok { c with summary :=
        { c.summary with SkippedFiles := c.summary.SkippedFiles + 1 } }) := by
  simp only [processFile, if_pos hskip]

theorem processFile_trace {α ε : Type} (col : Collab α ε) (cfg : RagConfigM)
    (reindexAll : Bool) (bs fuel : Nat) (f : fileEntry) (c : RunCtx α)
    (r : Except (RunError ε × RunCtx α) (RunCtx α))
    (h : processFile col cfg reindexAll bs fuel f c = some r) :
    ∃ Δ, (ctxOfE r).trace = c.trace ++ Δ ∧
      (∀ ev ∈ Δ, evFromFile f.RelPath f.AbsPath ev) ∧
      ((ctxOfE r).st.Files = c.st.Files ∨
        (ctxOfE r).st.Files = setKey c.st.Files f.RelPath f.MTime) ∧
      (ctxOfE r).summary.RemovedFiles = c.summary.RemovedFiles ∧
      (¬ ((!reindexAll) = true ∧ lookupF c.st.Files f.RelPath = some f.MTime) →
        (ctxOfE r).summary.SkippedFiles = c.summary.SkippedFiles) := by
  by_cases hskip : (!reindexAll) = true ∧ lookupF c.st.Files f.RelPath = some f.MTime
  · rw [processFile_skip col cfg reindexAll bs fuel f c hskip] at h
    injection h with h
    cases h
    exact ⟨[], by simp [ctxOfE], by simp, Or.inl rfl, rfl,
      fun hn => absurd hskip hn⟩
  · simp only [processFile, if_neg hskip, emitCall] at h
    cases hread : col.readFile f.AbsPath with
    | error e =>
      simp only [hread] at h
      injection h with h
      cases h
      refine ⟨[RagCall.readFile f.AbsPath], by simp [ctxOfE], ?_, Or.inl (by simp [ctxOfE]),
        by simp [ctxOfE], fun _ => by simp [ctxOfE]⟩
      intro ev hev
      rw [List.mem_singleton] at hev
      subst hev
      simp [evFromFile]
    | ok content =>
      simp only [hread] at h
      cases hch : chunkMarkdown f.RelPath content cfg.ChunkSize cfg.ChunkOverlap fuel with
      | none => simp only [hch] at h; cases h
      | some chunks =>
        simp only [hch] at h
        by_cases hempty : chunks = []
        · rw [if_pos hempty] at h
          injection h with h
          cases h
          refine ⟨[RagCall.readFile f.AbsPath], by simp [ctxOfE], ?_,
            Or.inr (by simp [ctxOfE]), by simp [ctxOfE], fun _ => by simp [ctxOfE]⟩
          intro ev hev
          rw [List.mem_singleton] at hev
          subst hev
          simp [evFromFile]
        · rw [if_neg hempty] at h
          cases hdel : col.deleteByPath f.RelPath with
          | error e =>
            simp only [hdel] at h
            injection h with h
            cases h
            refine ⟨[RagCall.readFile f.AbsPath, RagCall.deleteByPath f.RelPath],
              by simp [ctxOfE], ?_, Or.inl (by simp [ctxOfE]),
              by simp [ctxOfE], fun _ => by simp [ctxOfE]⟩
            intro ev hev
            rcases List.mem_cons.mp hev with hev | hev
            · subst hev; simp [evFromFile]
            · rw [List.mem_singleton] at hev
              subst hev
              simp [evFromFile]
          | ok u =>
            simp only [hdel] at h
            have hpaths : ∀ b ∈ batchesOf bs chunks, ∀ ch ∈ b, ch.Path = f.RelPath := by
              intro b hb ch hchm
              exact chunkMarkdown_path f.RelPath content cfg.ChunkSize cfg.ChunkOverlap
                fuel chunks hch ch (batchesOf_mem bs chunks b hb ch hchm)
            cases hpb : processBatches col cfg.EmbeddingDimension reindexAll f.RelPath
                f.MTime (batchesOf bs chunks)
                { c with trace := c.trace ++ [RagCall.readFile f.AbsPath] ++
                  [RagCall.deleteByPath f.RelPath] } with
            | error ec =>
              simp only [hpb] at h
              injection h with h
              cases h
              obtain ⟨Δ, ht, hev, hf, hs, hr⟩ := processBatches_trace col
                cfg.EmbeddingDimension reindexAll f.RelPath f.AbsPath f.MTime
                (batchesOf bs chunks) _ _ hpb hpaths
              simp only [ctxOfE] at ht hf hs hr ⊢
              refine ⟨RagCall.readFile f.AbsPath :: RagCall.deleteByPath f.RelPath :: Δ,
                ?_, ?_, Or.inl (by rw [hf]), by rw [hr], fun _ => by rw [hs]⟩
              · rw [ht]
                simp
              · intro ev hevm
                rcases List.mem_cons.mp hevm with hevm | hevm
                · subst hevm; simp [evFromFile]
                · rcases List.mem_cons.mp hevm with hevm | hevm
                  · subst hevm; simp [evFromFile]
                  · exact hev ev hevm
            | ok c2 =>
              simp only [hpb] at h
              injection h with h
              cases h
              obtain ⟨Δ, ht, hev, hf, hs, hr⟩ := processBatches_trace col
                cfg.EmbeddingDimension reindexAll f.RelPath f.AbsPath f.MTime
                (batchesOf bs chunks) _ _ hpb hpaths
              simp only [ctxOfE] at ht hf hs hr ⊢
              refine ⟨RagCall.readFile f.AbsPath :: RagCall.deleteByPath f.RelPath :: Δ,
                ?_, ?_, Or.inr (by rw [hf]), by split <;> simp [hr],
                fun _ => by split <;> simp [hs]⟩
              · rw [ht]
                simp
              · intro ev hevm
                rcases List.mem_cons.mp hevm with hevm | hevm
                · subst hevm; simp [evFromFile]
                · rcases List.mem_cons.mp hevm with hevm | hevm
                  · subst hevm; simp [evFromFile]
                  · exact hev ev hevm

theorem evFromFile_not_touches {α : Type} (grel gabs rel abs : Str)
    (ev : RagCall α) (hev : evFromFile grel gabs ev) (h1 : grel ≠ rel)
    (h2 : gabs ≠ abs) : evTouchesB rel abs ev = false := by
  cases ev with
  | ensureCollection d rc => rfl
  | saveState st => exact absurd hev (by simp [evFromFile])
  | readFile p =>
    simp only [evFromFile] at hev
    subst hev
    simp [evTouchesB, h2]
  | deleteByPath p =>
    simp only [evFromFile] at hev
    subst hev
    simp [evTouchesB, h1]
  | embedBatch p texts =>
    simp only [evFromFile] at hev
    subst hev
    simp [evTouchesB, h1]
  | upsert pts =>
    simp only [evFromFile] at hev
    simp only [evTouchesB, List.any_eq_false]
    intro pt hpt
    simp [hev pt hpt, h1]

theorem filesLoop_trace {α ε : Type} (col : Collab α ε) (cfg : RagConfigM)
    (reindexAll : Bool) (bs fuel : Nat) :
    ∀ (fs : List fileEntry) (c : RunCtx α)
      (r : Except (RunError ε × RunCtx α) (RunCtx α)),
      filesLoop col cfg reindexAll bs fuel fs c = some r →
      ∃ Δ, (ctxOfE r).trace = c.trace ++ Δ ∧
        ∀ ev ∈ Δ, ∃ g, g ∈ fs ∧ evFromFile g.RelPath g.AbsPath ev := by
  intro fs
  induction fs with
  | nil =>
    intro c r h
    simp only [filesLoop] at h
    injection h with h
    cases h
    exact ⟨[], by simp [ctxOfE], by simp⟩
  | cons f rest ih =>
    intro c r h
    simp only [filesLoop] at h
    cases hpf : processFile col cfg reindexAll bs fuel f c with
    | none => rw [hpf] at h; cases h
    | some r1 =>
      rw [hpf] at h
      cases r1 with
      | error ec =>
        simp only [] at h
        injection h with h
        cases h
        obtain ⟨Δ, ht, hev, _, _, _⟩ := processFile_trace col cfg reindexAll bs fuel
          f c _ hpf
        exact ⟨Δ, ht, fun ev hevm => ⟨f, List.mem_cons_self _ _, hev ev hevm⟩⟩
      | ok c2 =>
        simp only [] at h
        obtain ⟨Δ1, ht1, hev1, _, _, _⟩ := processFile_trace col cfg reindexAll bs fuel
          f c _ hpf
        obtain ⟨Δ2, ht2, hev2⟩ := ih c2 r h
        simp only [ctxOfE] at ht1
        refine ⟨Δ1 ++ Δ2, ?_, ?_⟩
        · rw [ht2, ht1, List.append_assoc]
        · intro ev hevm
          rcases List.mem_append.mp hevm with hevm | hevm
          · exact ⟨f, List.mem_cons_self _ _, hev1 ev hevm⟩
          · obtain ⟨g, hg, hgev⟩ := hev2 ev hevm
            exact ⟨g, List.mem_cons_of_mem _ hg, hgev⟩

theorem filesLoop_ok_spec {α ε : Type} (col : Collab α ε) (cfg : RagConfigM)
    (reindexAll : Bool) (bs fuel : Nat) :
    ∀ (fs : List fileEntry) (c c' : RunCtx α),
      filesLoop col cfg reindexAll bs fuel fs c = some (.ok c') →
      (∀ k, k ∉ fs.map fileEntry.RelPath →
        lookupF c'.st.Files k = lookupF c.st.Files k) ∧
      c'.summary.RemovedFiles = c.summary.RemovedFiles ∧
      ((fs.map fileEntry.RelPath).Nodup →
        c'.summary.SkippedFiles = c.summary.SkippedFiles + fs.countP (fun g =>
          !reindexAll && decide (lookupF c.st.Files g.RelPath = some g.MTime))) := by
  intro fs
  induction fs with
  | nil =>
    intro c c' h
    simp only [filesLoop] at h
    injection h with h
    injection h with h
    cases h
    exact ⟨fun k _ => rfl, rfl, fun _ => by simp⟩
  | cons f rest ih =>
    intro c c' h
    simp only [filesLoop] at h
    cases hpf : processFile col cfg reindexAll bs fuel f c with
    | none => rw [hpf] at h; cases h
    | some r1 =>
      rw [hpf] at h
      cases r1 with
      | error ec => simp at h
      | ok c2 =>
        simp only [] at h
        obtain ⟨ha, hb, hc⟩ := ih c2 c' h
        obtain ⟨Δ1, _, _, hfiles, hrem, hskipc⟩ := processFile_trace col cfg
          reindexAll bs fuel f c _ hpf
        simp only [ctxOfE] at hfiles hrem hskipc
        have hstable : ∀ k, k ≠ f.RelPath →
            lookupF c2.st.Files k = lookupF c.st.Files k := by
          intro k hk
          rcases hfiles with hfiles | hfiles
          · rw [hfiles]
          · rw [hfiles]
            exact lookupF_setKey_other _ _ _ _ hk
        refine ⟨?_, ?_, ?_⟩
        · intro k hk
          simp only [List.map_cons, List.mem_cons] at hk
          push_neg at hk
          rw [ha k hk.2, hstable k hk.1]
        · rw [hb, hrem]
        · intro hnd
          simp only [List.map_cons, List.nodup_cons] at hnd
          have hrestne : ∀ g ∈ rest, g.RelPath ≠ f.RelPath := by
            intro g hg hgr
            exact hnd.1 (hgr ▸ List.mem_map_of_mem fileEntry.RelPath hg)
          have hcount : rest.countP (fun g =>
              !reindexAll && decide (lookupF c2.st.Files g.RelPath = some g.MTime)) =
              rest.countP (fun g =>
              !reindexAll && decide (lookupF c.st.Files g.RelPath = some g.MTime)) := by
            apply List.countP_congr
            intro g hg
            rw [hstable g.RelPath (hrestne g hg)]
          by_cases hsk : (!reindexAll) = true ∧ lookupF c.st.Files f.RelPath = some f.MTime
          · have heq := processFile_skip col cfg reindexAll bs fuel f c hsk
            rw [heq] at hpf
            injection hpf with hpf
            injection hpf with hpf
            have hc2 : c2 = { c with summary :=
                { c.summary with SkippedFiles := c.summary.SkippedFiles + 1 } } := hpf.symm
            have hfeq : c2.st.Files = c.st.Files := by rw [hc2]
            have hskp : c2.summary.SkippedFiles = c.summary.SkippedFiles + 1 := by rw [hc2]
            have hcnt2 : rest.countP (fun g =>
                !reindexAll && decide (lookupF c2.st.Files g.RelPath = some g.MTime)) =
                rest.countP (fun g =>
                !reindexAll && decide (lookupF c.st.Files g.RelPath = some g.MTime)) := by
              apply List.countP_congr
              intro g _
              rw [hfeq]
            rw [hc hnd.2, hskp, hcnt2, List.countP_cons]
            simp [hsk.1, hsk.2]
            omega
          · rw [hc hnd.2, hcount, hskipc hsk]
            simp only [List.countP_cons]
            have hpred : (!reindexAll && decide
                (lookupF c.st.Files f.RelPath = some f.MTime)) = false := by
              rw [not_and_or] at hsk
              rcases hsk with hsk | hsk
              · simp [Bool.not_eq_true] at hsk
                simp [hsk]
              · simp [hsk]
            rw [hpred]
            simp

theorem filesLoop_foreign {α ε : Type} (col : Collab α ε) (cfg : RagConfigM)
    (reindexAll : Bool) (bs fuel : Nat) (rel abs : Str) :
    ∀ (fs : List fileEntry) (c : RunCtx α)
      (r : Except (RunError ε × RunCtx α) (RunCtx α)),
      filesLoop col cfg reindexAll bs fuel fs c = some r →
      (∀ g ∈ fs, g.AbsPath = abs → g.RelPath = rel) →
      (∀ g ∈ fs, g.RelPath = rel →
        ((!reindexAll) = true ∧ lookupF c.st.Files rel = some g.MTime)) →
      ∀ ev ∈ (ctxOfE r).trace, evTouchesB rel abs ev = true → ev ∈ c.trace := by
  intro fs
  induction fs with
  | nil =>
    intro c r h _ _
    simp only [filesLoop] at h
    injection h with h
    cases h
    intro ev hev _
    exact hev
  | cons f rest ih =>
    intro c r h h1 h2
    simp only [filesLoop] at h
    by_cases hrel : f.RelPath = rel
    · have hsk : (!reindexAll) = true ∧ lookupF c.st.Files f.RelPath = some f.MTime := by
        obtain ⟨hx, hy⟩ := h2 f (List.mem_cons_self _ _) hrel
        exact ⟨hx, by rw [hrel]; exact hy⟩
      rw [processFile_skip col cfg reindexAll bs fuel f c hsk] at h
      simp only [] at h
      intro ev hev htouch
      exact ih _ r h (fun g hg => h1 g (List.mem_cons_of_mem _ hg))
        (fun g hg hgr => h2 g (List.mem_cons_of_mem _ hg) hgr) ev hev htouch
    · have habs : f.AbsPath ≠ abs := fun hh =>
        hrel (h1 f (List.mem_cons_self _ _) hh)
      cases hpf : processFile col cfg reindexAll bs fuel f c with
      | none => rw [hpf] at h; cases h
      | some r1 =>
        rw [hpf] at h
        obtain ⟨Δ1, ht1, hev1, hfiles, _, _⟩ := processFile_trace col cfg reindexAll
          bs fuel f c _ hpf
        cases r1 with
        | error ec =>
          simp only [] at h
          injection h with h
          cases h
          intro ev hev htouch
          rw [ht1] at hev
          rcases List.mem_append.mp hev with hev | hev
          · exact hev
          · exact absurd htouch (by
              rw [evFromFile_not_touches f.RelPath f.AbsPath rel abs ev
                (hev1 ev hev) hrel habs]
              simp)
        | ok c2 =>
          simp only [] at h
          simp only [ctxOfE] at ht1 hfiles
          intro ev hev htouch
          have hev2 := ih c2 r h (fun g hg => h1 g (List.mem_cons_of_mem _ hg))
            (fun g hg hgr => by
              obtain ⟨hx, hy⟩ := h2 g (List.mem_cons_of_mem _ hg) hgr
              refine ⟨hx, ?_⟩
              rcases hfiles with hf | hf
              · rw [hf]; exact hy
              · rw [hf, lookupF_setKey_other _ _ _ _ (fun hh => hrel hh.symm)]
                exact hy) ev hev htouch
          rw [ht1] at hev2
          rcases List.mem_append.mp hev2 with hev2 | hev2
          · exact hev2
          · exact absurd htouch (by
              rw [evFromFile_not_touches f.RelPath f.AbsPath rel abs ev
                (hev1 ev hev2) hrel habs]
              simp)

theorem evFromFile_not_save {α : Type} (rel abs : Str) (ev : RagCall α)
    (hev : evFromFile rel abs ev) : RagCall.isSaveB ev = false := by
  cases ev <;> simp [RagCall.isSaveB]
  exact absurd hev (by simp [evFromFile])

theorem ensure_error_trace {α ε : Type} (col : Collab α ε) (recreate : Bool)
    (dim : Int) (c0 cx : RunCtx α) (e : RunError ε)
    (heq : ensureCollectionGo col recreate dim c0 = .error (e, cx)) :
    ∃ Δ, cx.trace = c0.trace ++ Δ ∧
      ∀ ev ∈ Δ, ∃ d r, ev = RagCall.ensureCollection d r := by
  obtain ⟨Δ, ht, hens, _, _⟩ := ensureCollectionGo_spec col recreate dim c0
  rw [heq] at ht
  simp only [ctxOfE] at ht
  exact ⟨Δ, ht, hens⟩

theorem ensure_ok_trace {α ε : Type} (col : Collab α ε) (recreate : Bool)
    (dim : Int) (c0 c1 : RunCtx α)
    (heq : ensureCollectionGo col recreate dim c0 = .ok c1) :
    ∃ Δ, c1.trace = c0.trace ++ Δ ∧
      (∀ ev ∈ Δ, ∃ d r, ev = RagCall.ensureCollection d r) ∧
      c1.st.Files = c0.st.Files ∧ c1.summary = c0.summary := by
  obtain ⟨Δ, ht, hens, hf, hs⟩ := ensureCollectionGo_spec col recreate dim c0
  rw [heq] at ht
  rw [heq] at hf
  rw [heq] at hs
  simp only [ctxOfE] at ht hf hs
  exact ⟨Δ, ht, hens, hf, hs⟩

/-- C5: a run aborted by a failing embedding or vector-store call never
attempts the manifest write: the trace of the error outcome contains no
save event (the previously persisted manifest stays untouched). -/
theorem C5_failed_run_writes_no_manifest {α ε : Type} (col : Collab α ε)
    (cfg : RagConfigM) (embedModel collectionName : Str)
    (files : List fileEntry) (loaded : Option indexState) (opts : Bool)
    (fuel : Nat) (e : RunError ε) (c : RunCtx α)
    (hrun : runGo col cfg embedModel collectionName files loaded opts fuel =
      some (Outcome.err e c))
    (hcf : e.isCollaboratorFailure = true) :
    c.trace.all (fun ev => !RagCall.isSaveB ev) = true := by
  rw [List.all_eq_true]
  suffices hsuff : ∀ ev ∈ c.trace, RagCall.isSaveB ev = false by
    intro ev hev
    rw [hsuff ev hev]
    rfl
  simp only [runGo] at hrun
  split at hrun
  next e1 cx heq =>
    injection hrun with hrun
    injection hrun with hrun1 hrun2
    subst hrun1
    subst hrun2
    split at heq <;> split at heq <;>
      first
        | cases heq
        | (obtain ⟨Δ, ht, hens⟩ := ensure_error_trace _ _ _ _ _ _ heq
           intro ev hev
           rw [ht] at hev
           simp at hev
           obtain ⟨d, rc, hev2⟩ := hens ev hev
           subst hev2
           rfl)
  next c1 heq =>
    have hc1 : ∀ ev ∈ c1.trace, RagCall.isSaveB ev = false := by
      split at heq <;> split at heq <;>
        first
          | (injection heq with heq
             subst heq
             intro ev hev
             simp at hev)
          | (obtain ⟨Δ, ht, hens, _, _⟩ := ensure_ok_trace _ _ _ _ _ heq
             intro ev hev
             rw [ht] at hev
             simp at hev
             obtain ⟨d, rc, hev2⟩ := hens ev hev
             subst hev2
             rfl)
    split at hrun
    next e2 cx heq2 =>
      injection hrun with hrun
      injection hrun with hrun1 hrun2
      subst hrun1
      subst hrun2
      obtain ⟨Δ, ht, hdel⟩ := removalPass_trace col
        (files.map fun f => f.RelPath) _ _ _ heq2
      simp only [ctxOfE] at ht
      intro ev hev
      rw [ht] at hev
      rcases List.mem_append.mp hev with hev | hev
      · split at hev <;> exact hc1 ev hev
      · obtain ⟨p, hev2, _⟩ := hdel ev hev
        subst hev2
        rfl
    next c2 heq2 =>
      have hc2 : ∀ ev ∈ c2.trace, RagCall.isSaveB ev = false := by
        obtain ⟨Δ, ht, hdel⟩ := removalPass_trace col
          (files.map fun f => f.RelPath) _ _ _ heq2
        simp only [ctxOfE] at ht
        intro ev hev
        rw [ht] at hev
        rcases List.mem_append.mp hev with hev | hev
        · split at hev <;> exact hc1 ev hev
        · obtain ⟨p, hev2, _⟩ := hdel ev hev
          subst hev2
          rfl
      split at hrun
      next heq3 => cases hrun
      next e3 cx heq3 =>
        injection hrun with hrun
        injection hrun with hrun1 hrun2
        subst hrun1
        subst hrun2
        obtain ⟨Δ, ht, hfl⟩ := filesLoop_trace col cfg _ _ fuel files c2 _ heq3
        simp only [ctxOfE] at ht
        intro ev hev
        rw [ht] at hev
        rcases List.mem_append.mp hev with hev | hev
        · exact hc2 ev hev
        · obtain ⟨g, _, hg⟩ := hfl ev hev
          exact evFromFile_not_save _ _ ev hg
      next c3 heq3 =>
        split at hrun
        next e4 heq4 =>
          injection hrun with hrun
          injection hrun with hrun1 hrun2
          subst hrun1
          exact absurd hcf (by simp [RunError.isCollaboratorFailure])
        next heq4 => cases hrun

theorem evFromFile_not_deleteFor {α : Type} (grel gabs p : Str) (ev : RagCall α)
    (hev : evFromFile grel gabs ev) (h : grel ≠ p) : isDeleteForB p ev = false := by
  cases ev with
  | deleteByPath q =>
    simp only [evFromFile] at hev
    subst hev
    simp [isDeleteForB, h]
  | saveState st => exact absurd hev (by simp [evFromFile])
  | _ => rfl

theorem countP_deleteMap_zero {α : Type} (cur : List Str) (p : Str) :
    ∀ entries : List (Str × Int), p ∉ entries.map Prod.fst →
    ((entries.filter (fun e => !decide (e.1 ∈ cur))).map
      (fun e => RagCall.deleteByPath (α := α) e.1)).countP (isDeleteForB p) = 0 := by
  intro entries
  induction entries with
  | nil => intro _; rfl
  | cons e rest ih =>
    intro hp
    simp only [List.map_cons, List.mem_cons] at hp
    push_neg at hp
    rw [List.filter_cons]
    have hne : e.1 ≠ p := fun h => hp.1 h.symm
    by_cases hk : (!decide (e.1 ∈ cur)) = true
    · rw [if_pos hk]
      simp only [List.map_cons, List.countP_cons]
      have h0 : isDeleteForB p (RagCall.deleteByPath (α := α) e.1) = false := by
        simp [isDeleteForB, hne]
      rw [h0, ih hp.2]
      simp
    · rw [if_neg hk]
      exact ih hp.2

theorem countP_deleteMap_one {α : Type} (cur : List Str) (p : Str) :
    ∀ entries : List (Str × Int), (entries.map Prod.fst).Nodup →
    ∀ mt : Int, (p, mt) ∈ entries → p ∉ cur →
    ((entries.filter (fun e => !decide (e.1 ∈ cur))).map
      (fun e => RagCall.deleteByPath (α := α) e.1)).countP (isDeleteForB p) = 1 := by
  intro entries
  induction entries with
  | nil => intro _ mt hmem; simp at hmem
  | cons e rest ih =>
    intro hnd mt hmem hp
    simp only [List.map_cons, List.nodup_cons] at hnd
    rcases List.mem_cons.mp hmem with hmem | hmem
    · subst hmem
      rw [List.filter_cons]
      have hk : (!decide ((p, mt).1 ∈ cur)) = true := by simp [hp]
      rw [if_pos hk]
      simp only [List.map_cons, List.countP_cons]
      have h1 : isDeleteForB p (RagCall.deleteByPath (α := α) (p, mt).1) = true := by
        simp [isDeleteForB]
      rw [h1, countP_deleteMap_zero cur p rest hnd.1]
      simp
    · have hpin : p ∈ rest.map Prod.fst := List.mem_map_of_mem Prod.fst hmem
      have hne : e.1 ≠ p := fun hh => hnd.1 (hh.symm ▸ hpin)
      rw [List.filter_cons]
      by_cases hk : (!decide (e.1 ∈ cur)) = true
      · rw [if_pos hk]
        simp only [List.map_cons, List.countP_cons]
        have h0 : isDeleteForB p (RagCall.deleteByPath (α := α) e.1) = false := by
          simp [isDeleteForB, hne]
        rw [h0, ih hnd.2 mt hmem hp]
        simp
      · rw [if_neg hk]
        exact ih hnd.2 mt hmem hp

/-- Decomposition of a successfully completed non-full-rebuild run into
its phases: the upfront collection ensure, the removal pass, the per-file
loop and the final manifest write. -/
theorem runGo_ok_decomp {α ε : Type} (col : Collab α ε) (cfg : RagConfigM)
    (embedModel collectionName : Str) (files : List fileEntry)
    (loaded : Option indexState) (opts : Bool) (fuel : Nat) (c : RunCtx α)
    (hrun : runGo col cfg embedModel collectionName files loaded opts fuel =
      some (Outcome.ok c))
    (hreindex : computeReindexAll loaded opts embedModel cfg.ChunkSize
      cfg.ChunkOverlap cfg.IncludePatterns cfg.ExcludePatterns collectionName = false) :
    ∃ (c1 c2 c3 : RunCtx α) (stf : indexState),
      (∀ ev ∈ c1.trace, ∃ d r, ev = RagCall.ensureCollection d r) ∧
      c1.st.Files = (loaded.getD freshIndexState).Files ∧
      c1.summary = ⟨files.length, 0, 0, 0, 0, 0⟩ ∧
      removalPass col (files.map fun f => f.RelPath) c1.st.Files c1 = .ok c2 ∧
      filesLoop col cfg false (embeddingClientBatchSize cfg.EmbeddingBatchSize)
        fuel files c2 = some (.ok c3) ∧
      c.st.Files = c3.st.Files ∧
      c.summary = c3.summary ∧
      c.trace = c3.trace ++ [RagCall.saveState stf] := by
  simp only [runGo, hreindex, Bool.false_eq_true, if_false] at hrun
  split at hrun
  next e1 cx heq => cases hrun
  next c1 heq =>
    have hc1 : (∀ ev ∈ c1.trace, ∃ d r, ev = RagCall.ensureCollection d r) ∧
        c1.st.Files = (loaded.getD freshIndexState).Files ∧
        c1.summary = ⟨files.length, 0, 0, 0, 0, 0⟩ := by
      split at heq <;> split at heq <;>
        first
          | (injection heq with heq
             subst heq
             exact ⟨by intro ev hev; simp at hev, rfl, rfl⟩)
          | (obtain ⟨Δ, ht, hens, hf, hs⟩ := ensure_ok_trace _ _ _ _ _ heq
             refine ⟨?_, hf, hs⟩
             intro ev hev
             rw [ht] at hev
             simp at hev
             exact hens ev hev)
    split at hrun
    next e2 cx heq2 => cases hrun
    next c2 heq2 =>
      split at hrun
      next heq3 => cases hrun
      next e3 cx heq3 => cases hrun
      next c3 heq3 =>
        split at hrun
        next e4 heq4 => cases hrun
        next heq4 =>
          injection hrun with hrun
          injection hrun with hrun
          refine ⟨c1, c2, c3,
            { c3.st with
              Collection := collectionName,
              EmbeddingModel := embedModel,
              ChunkSize := cfg.ChunkSize,
              ChunkOverlap := cfg.ChunkOverlap,
              IncludePatterns := cfg.IncludePatterns,
              ExcludePatterns := cfg.ExcludePatterns },
            hc1.1, hc1.2.1, hc1.2.2, heq2, heq3, ?_, ?_, ?_⟩
          · rw [← hrun]
            simp [emitCall]
          · rw [← hrun]
            simp [emitCall]
          · rw [← hrun]
            simp [emitCall]

/-- C6: in a completed non-full-rebuild run (over a discovery result with
distinct relative and absolute paths and a manifest with unique keys),
every discovered file whose last-modified marker matches the manifest is
counted as skipped, and the trace holds no read, delete, embed or upsert
call for it; the skip counter equals the number of such files. -/
theorem C6_unchanged_files_skipped {α ε : Type} (col : Collab α ε)
    (cfg : RagConfigM) (embedModel collectionName : Str)
    (files : List fileEntry) (loaded : Option indexState) (opts : Bool)
    (fuel : Nat) (c : RunCtx α)
    (hrun : runGo col cfg embedModel collectionName files loaded opts fuel =
      some (Outcome.ok c))
    (hreindex : computeReindexAll loaded opts embedModel cfg.ChunkSize
      cfg.ChunkOverlap cfg.IncludePatterns cfg.ExcludePatterns collectionName = false)
    (hndrel : (files.map fileEntry.RelPath).Nodup)
    (hndabs : (files.map fileEntry.AbsPath).Nodup)
    (hndman : ((loaded.getD freshIndexState).Files.map Prod.fst).Nodup) :
    (∀ f ∈ files,
      lookupF (loaded.getD freshIndexState).Files f.RelPath = some f.MTime →
      c.trace.all (fun ev => !evTouchesB f.RelPath f.AbsPath ev) = true) ∧
    c.summary.SkippedFiles = files.countP (fun g =>
      decide (lookupF (loaded.getD freshIndexState).Files g.RelPath = some g.MTime)) := by
  obtain ⟨c1, c2, c3, stf, hens, hf1, hsum1, hrem, hfl, hcfiles, hcsum, hctrace⟩ :=
    runGo_ok_decomp col cfg embedModel collectionName files loaded opts fuel c
      hrun hreindex
  have hndc1 : (c1.st.Files.map Prod.fst).Nodup := by rw [hf1]; exact hndman
  obtain ⟨hrb, hrother, hrnone, hrnd, hrtrace, hrcount, hrskip⟩ :=
    removalPass_ok_spec col (files.map fun f => f.RelPath) c1.st.Files c1 c2
      hrem hndc1
  obtain ⟨hla, hlrem, hlskip⟩ := filesLoop_ok_spec col cfg false
    (embeddingClientBatchSize cfg.EmbeddingBatchSize) fuel files c2 c3 hfl
  constructor
  · intro f hf hlook
    rw [List.all_eq_true]
    intro ev hev
    suffices hT : evTouchesB f.RelPath f.AbsPath ev = false by rw [hT]; rfl
    rw [hctrace] at hev
    rcases List.mem_append.mp hev with hev | hev
    · by_contra hcon
      have htt : evTouchesB f.RelPath f.AbsPath ev = true := by
        revert hcon
        cases evTouchesB f.RelPath f.AbsPath ev <;> simp
      have hinjrel := List.inj_on_of_nodup_map hndrel
      have hinjabs := List.inj_on_of_nodup_map hndabs
      have h1 : ∀ g ∈ files, g.AbsPath = f.AbsPath → g.RelPath = f.RelPath := by
        intro g hg hab
        rw [hinjabs hg hf hab]
      have h2 : ∀ g ∈ files, g.RelPath = f.RelPath →
          ((!false) = true ∧ lookupF c2.st.Files f.RelPath = some g.MTime) := by
        intro g hg hgr
        have hgf : g = f := hinjrel hg hf hgr
        subst hgf
        refine ⟨rfl, ?_⟩
        rw [← hgr]
        rw [hrb g.RelPath (List.mem_map_of_mem fileEntry.RelPath hg), hf1]
        rw [hgr]
        exact hlook
      have hmem2 := filesLoop_foreign col cfg false
        (embeddingClientBatchSize cfg.EmbeddingBatchSize) fuel f.RelPath f.AbsPath
        files c2 _ hfl h1 h2 ev (by simpa [ctxOfE] using hev) htt
      rw [hrtrace] at hmem2
      rcases List.mem_append.mp hmem2 with hmem2 | hmem2
      · obtain ⟨d, r, hevE⟩ := hens ev hmem2
        subst hevE
        simp [evTouchesB] at htt
      · rw [List.mem_map] at hmem2
        obtain ⟨epair, hmemf, hevE⟩ := hmem2
        subst hevE
        rw [List.mem_filter] at hmemf
        obtain ⟨_, hecur⟩ := hmemf
        simp only [evTouchesB, decide_eq_true_eq] at htt
        rw [htt] at hecur
        have hfmem : f.RelPath ∈ List.map (fun f => f.RelPath) files :=
          List.mem_map_of_mem _ hf
        simp [hfmem] at hecur
    · rw [List.mem_singleton] at hev
      subst hev
      rfl
  · have h0 : c1.summary.SkippedFiles = 0 := by rw [hsum1]
    have hcnt : files.countP (fun g =>
        !false && decide (lookupF c2.st.Files g.RelPath = some g.MTime)) =
        files.countP (fun g =>
        decide (lookupF (loaded.getD freshIndexState).Files g.RelPath = some g.MTime)) := by
      apply List.countP_congr
      intro g hg
      have hst : lookupF c2.st.Files g.RelPath =
          lookupF (loaded.getD freshIndexState).Files g.RelPath := by
        rw [hrb g.RelPath (List.mem_map_of_mem fileEntry.RelPath hg), hf1]
      rw [hst]
      simp
    rw [hcsum, hlskip hndrel, hrskip, h0, hcnt]
    omega

/-- C7 (amended with the non-full-rebuild qualifier): in a completed
non-full-rebuild run, every manifest path absent from the scan receives
exactly one delete-by-path call, is absent from the final manifest file
set, and the removed counter equals the number of such paths. -/
theorem C7_stale_paths_removed {α ε : Type} (col : Collab α ε)
    (cfg : RagConfigM) (embedModel collectionName : Str)
    (files : List fileEntry) (loaded : Option indexState) (opts : Bool)
    (fuel : Nat) (c : RunCtx α)
    (hrun : runGo col cfg embedModel collectionName files loaded opts fuel =
      some (Outcome.ok c))
    (hreindex : computeReindexAll loaded opts embedModel cfg.ChunkSize
      cfg.ChunkOverlap cfg.IncludePatterns cfg.ExcludePatterns collectionName = false)
    (hndman : ((loaded.getD freshIndexState).Files.map Prod.fst).Nodup) :
    (∀ p mt, (p, mt) ∈ (loaded.getD freshIndexState).Files →
      p ∉ files.map fileEntry.RelPath →
      c.trace.countP (isDeleteForB p) = 1 ∧ lookupF c.st.Files p = none) ∧
    c.summary.RemovedFiles = (loaded.getD freshIndexState).Files.countP
      (fun e => !decide (e.1 ∈ files.map fileEntry.RelPath)) := by
  obtain ⟨c1, c2, c3, stf, hens, hf1, hsum1, hrem, hfl, hcfiles, hcsum, hctrace⟩ :=
    runGo_ok_decomp col cfg embedModel collectionName files loaded opts fuel c
      hrun hreindex
  have hndc1 : (c1.st.Files.map Prod.fst).Nodup := by rw [hf1]; exact hndman
  obtain ⟨hrb, hrother, hrnone, hrnd, hrtrace, hrcount, hrskip⟩ :=
    removalPass_ok_spec col (files.map fun f => f.RelPath) c1.st.Files c1 c2
      hrem hndc1
  obtain ⟨hla, hlrem, hlskip⟩ := filesLoop_ok_spec col cfg false
    (embeddingClientBatchSize cfg.EmbeddingBatchSize) fuel files c2 c3 hfl
  obtain ⟨Δ3, hlt, hlev⟩ := filesLoop_trace col cfg false
    (embeddingClientBatchSize cfg.EmbeddingBatchSize) fuel files c2 _ hfl
  simp only [ctxOfE] at hlt
  constructor
  · intro p mt hmem hstale
    have hmem1 : (p, mt) ∈ c1.st.Files := by rw [hf1]; exact hmem
    constructor
    · rw [hctrace, List.countP_append, hlt, List.countP_append, hrtrace,
        List.countP_append]
      have hens0 : c1.trace.countP (isDeleteForB p) = 0 := by
        rw [List.countP_eq_zero]
        intro ev hev
        obtain ⟨d, r, hevE⟩ := hens ev hev
        subst hevE
        simp [isDeleteForB]
      have hrm1 : ((c1.st.Files.filter (fun e => !decide (e.1 ∈
          files.map fun f => f.RelPath))).map
          (fun e => RagCall.deleteByPath (α := α) e.1)).countP (isDeleteForB p) = 1 := by
        exact countP_deleteMap_one _ p c1.st.Files hndc1 mt hmem1
          (by simpa using hstale)
      have hl0 : Δ3.countP (isDeleteForB p) = 0 := by
        rw [List.countP_eq_zero]
        intro ev hev
        obtain ⟨g, hg, hgev⟩ := hlev ev hev
        have hgne : g.RelPath ≠ p := by
          intro hh
          exact hstale (hh ▸ List.mem_map_of_mem fileEntry.RelPath hg)
        simp [evFromFile_not_deleteFor g.RelPath g.AbsPath p ev hgev hgne]
      have hsv0 : ([RagCall.saveState (α := α) stf]).countP (isDeleteForB p) = 0 := by
        rw [List.countP_eq_zero]
        intro ev hev
        rw [List.mem_singleton] at hev
        subst hev
        simp [isDeleteForB]
      rw [hens0, hrm1, hl0, hsv0]
    · rw [hcfiles, hla p (by simpa using hstale)]
      exact hrnone hndc1 p mt hmem1 (by simpa using hstale)
  · have h0 : c1.summary.RemovedFiles = 0 := by rw [hsum1]
    rw [hcsum, hlrem, hrcount, h0]
    rw [hf1]
    simp

/- ------------------------------------------------------------------ -/
/- Concrete runs: C4 code path, counterexamples and witnesses         -/
/- ------------------------------------------------------------------ -/

/-- Collaborators that always succeed; the embedding collaborator returns
one-dimensional vectors. -/
def okCollab : Collab Int Unit where
  readFile := fun _ => .ok ['h', 'i']
  embedBatch := fun texts => .ok (texts.map fun _ => [(7 : Int)])
  ensureCollection := fun _ _ => .ok ()
  deleteByPath := fun _ => .ok ()
  upsert := fun _ => .ok ()
  saveState := fun _ => .ok ()

/-- Same collaborators, but every upsert fails. -/
def failUpsertCollab : Collab Int Unit :=
  { okCollab with upsert := fun _ => .error () }

/-- Configuration with embedding dimension 2 pre-configured. -/
def exCfgDim2 : RagConfigM := ⟨0, 0, [], [], 2, 0⟩

/-- Configuration with no pre-configured embedding dimension. -/
def exCfgPlain : RagConfigM := ⟨0, 0, [], [], 0, 0⟩

def exFilesC4 : List fileEntry := [⟨['/','a','.','m','d'], ['a','.','m','d'], 1⟩]

def exFilesC5 : List fileEntry := [⟨['/','a','.','m','d'], ['a','.','m','d'], 5⟩]

/-- Manifest tracking a.md at an older modification time, dimension 2
recorded. -/
def stChanged : indexState := ⟨1, [], [], [], 2, 0, 0, [], [], [(['a','.','m','d'], 4)]⟩

/-- The context at which the failing-upsert run aborts. -/
def ctxUpsertFail : RunCtx Int :=
  ⟨stChanged, ⟨1, 0, 0, 0, 0, 1⟩,
   [.ensureCollection 2 false,
    .readFile ['/','a','.','m','d'],
    .deleteByPath ['a','.','m','d'],
    .embedBatch ['a','.','m','d'] [['h','i']],
    .upsert [⟨⟨['a','.','m','d'], 1, 1⟩, [7],
      ⟨['a','.','m','d'], ['a'], 1, 1, ['h','i'], 5⟩⟩]]⟩

/-- Manifest tracking a.md at its current modification time. -/
def stSkip : indexState := ⟨1, [], [], [], 0, 0, 0, [], [], [(['a','.','m','d'], 5)]⟩

/-- The final context of the run that skips the unchanged a.md. -/
def ctxSkipRun : RunCtx Int := ⟨stSkip, ⟨1, 0, 0, 0, 1, 0⟩, [.saveState stSkip]⟩

/-- Manifest tracking a path that no longer exists on disk. -/
def stStale : indexState := ⟨1, [], [], [], 0, 0, 0, [], [], [(['g','o','n','e'], 3)]⟩

def stStaleCleared : indexState := ⟨1, [], [], [], 0, 0, 0, [], [], []⟩

/-- The final context of the incremental run over the stale manifest. -/
def ctxStaleRun : RunCtx Int :=
  ⟨stStaleCleared, ⟨0, 0, 0, 1, 0, 0⟩,
   [.deleteByPath ['g','o','n','e'], .saveState stStaleCleared]⟩

/-- C4: the dimension-mismatch check is dead code. With dimension 2
pre-configured and an absent manifest, the upfront ensureCollection
records dimension 2 in the in-memory state, so the lazy check never runs:
the embedding collaborator's one-dimensional vectors are upserted and the
run completes successfully instead of failing with the dimension-mismatch
error the claim requires. -/
theorem C4_dimension_mismatch_check_dead :
    exCfgDim2.EmbeddingDimension = 2 ∧
    okCollab.embedBatch [['h','i']] = Except.ok [[(7 : Int)]] ∧
    (runOkTrace (runGo okCollab exCfgDim2 [] [] exFilesC4 none false 9)).map
      (fun tr => (hasUpsertVecLen 1 tr, hasUpsertVecLen 2 tr)) =
      some (true, false) :=
  ⟨rfl, rfl, rfl⟩

/-- Witness for C5: a run whose upsert call fails aborts with a
collaborator failure whose trace holds no manifest write. -/
theorem C5_failed_run_writes_no_manifest_witness :
    ctxUpsertFail.trace.all (fun ev => !RagCall.isSaveB ev) = true :=
  C5_failed_run_writes_no_manifest failUpsertCollab exCfgPlain [] [] exFilesC5
    (some stChanged) false 9 (RunError.upsertFailed ()) ctxUpsertFail
    (by decide) (by decide)

/-- Witness for C6: the run over one unchanged file counts exactly it as
skipped. -/
theorem C6_unchanged_files_skipped_witness :
    ctxSkipRun.summary.SkippedFiles = exFilesC5.countP (fun g =>
      decide (lookupF ((some stSkip).getD freshIndexState).Files g.RelPath =
        some g.MTime)) :=
  (C6_unchanged_files_skipped okCollab exCfgPlain [] [] exFilesC5 (some stSkip)
    false 9 ctxSkipRun (by decide) (by decide) (by decide) (by decide)
    (by decide)).2

/-- Witness for C7: the stale manifest path receives exactly one delete
call and is gone from the final manifest file set. -/
theorem C7_stale_paths_removed_witness :
    ctxStaleRun.trace.countP (isDeleteForB ['g','o','n','e']) = 1 ∧
    lookupF ctxStaleRun.st.Files ['g','o','n','e'] = none :=
  (C7_stale_paths_removed okCollab exCfgPlain [] [] [] (some stStale) false 9
    ctxStaleRun (by decide) (by decide) (by decide)).1 ['g','o','n','e'] 3
    (by decide) (by decide)

/-- Counterexample to C7 as stated: on a full rebuild (requested
explicitly), the manifest's file set is cleared before the removal pass,
so the stale path "gone" — present in the loaded manifest and absent from
the (empty) scan — receives zero delete-by-path calls and RemovedFiles
stays 0, not 1. -/
theorem C7_counterexample :
    ((['g','o','n','e'], (3 : Int)) ∈ stStale.Files) ∧
    (['g','o','n','e'] ∉ ([] : List fileEntry).map fileEntry.RelPath) ∧
    (runOkTrace (runGo okCollab exCfgPlain [] [] [] (some stStale) true 9)).map
      (fun tr => tr.countP (isDeleteForB ['g','o','n','e'])) = some 0 ∧
    runOkRemoved (runGo okCollab exCfgPlain [] [] [] (some stStale) true 9) =
      some 0 :=
  ⟨by decide, by decide, rfl, rfl⟩

end Picoclaw
